import Mathlib

/-!
# Buffer codec of `src/core/main.cpp` (weighted straight skeleton bridge)

A shallow embedding of the four functions of `main.cpp`:
`serialize_mesh`, `decode_polygon`, `generate_extruded_mesh` and the two
exported entry points, followed by theorems about them.

Modelling conventions.

* A buffer is a finite list of 32-bit words (`Word`, the bit pattern as a
  natural number).  A `float` stored in a buffer is identified with its word.
* `uint32_t`/`unsigned int` arithmetic that the source performs is written with
  an explicit `% 2^32`; `size_t` is 32 bits wide (the file is built for the
  wasm32 target of Emscripten).  The loop counter `long i` of the decoder is
  exact.
* `assert` is enabled: a failed assertion aborts the call.
* A read outside the supplied buffer is undefined behaviour in C++.  The model
  stops there with the distinguished outcome `Fault.read_past_end`, which
  records only that the execution reaches such a read; what the compiled
  function does from that read on depends on the memory after the buffer and
  is not described.
* CGAL is an external library: the scalar conversions, the orientation
  predicate and the extrusion engine are parameters (`Kernel`, `Engine`).
-/

namespace Skeleton

set_option autoImplicit false

/-! ## Data model -/

/-- A 32-bit memory word, given by its bit pattern. -/
abbrev Word := Nat

/-- Two to the thirty-second: the modulus of `uint32_t` arithmetic. -/
abbrev UINT32_MOD : Nat := 2 ^ 32

/-- The modulus of `size_t` arithmetic on the wasm32 target. -/
abbrev SIZE_MOD : Nat := 2 ^ 32

/-- Value of `K::Point_2`: two coordinates of the number type `FT`. -/
structure Point_2 (FT : Type) where
  x : FT
  y : FT
  deriving DecidableEq, Repr

/-- Value of `K::Point_3`. -/
structure Point_3 (FT : Type) where
  x : FT
  y : FT
  z : FT
  deriving DecidableEq, Repr

/-- A `Polygon_2` is its vertex sequence, in `push_back` order. -/
abbrev Polygon_2 (FT : Type) := List (Point_2 FT)

/-- A `Polygon_with_holes`: an outer boundary and the holes in `add_hole` order. -/
structure Polygon_with_holes (FT : Type) where
  outer : Polygon_2 FT
  holes : List (Polygon_2 FT)
  deriving DecidableEq, Repr

/-- Result of the default constructor `Polygon_with_holes poly;`. -/
def Polygon_with_holes.empty {FT : Type} : Polygon_with_holes FT := ⟨[], []⟩

/-- The values of `CGAL::Orientation`. -/
inductive Orientation
  | CLOCKWISE
  | COLLINEAR
  | COUNTERCLOCKWISE
  deriving DecidableEq, Repr

/-- A `Mesh::Vertex_index`. -/
abbrev Vertex_index := Nat

/-- Modelled from the spec: the CGAL type `Surface_mesh<Point_3>` is not in src/.
A mesh is an ordered collection of vertices, each with a position, and an
ordered collection of faces, each an ordered sequence of vertices.
`vertices` is the enumeration `mesh.vertices()`, `point` is `mesh.point(v)`,
and `faces` lists, for each face of `mesh.faces()` in order, the vertices of
`vertices_around_face(mesh.halfedge(face), mesh)`. -/
structure Mesh (FT : Type) where
  vertices : List Vertex_index
  point : Vertex_index → Point_3 FT
  faces : List (List Vertex_index)

/-- The count `mesh.num_vertices()`. -/
def Mesh.num_vertices {FT : Type} (mesh : Mesh FT) : Nat := mesh.vertices.length

/-- The count `mesh.num_faces()`. -/
def Mesh.num_faces {FT : Type} (mesh : Mesh FT) : Nat := mesh.faces.length

/-- Result of the default constructor `Mesh mesh;`. -/
def Mesh.empty {FT : Type} [Inhabited FT] : Mesh FT :=
  ⟨[], fun _ => ⟨default, default, default⟩, []⟩

/-- External scalar and geometric operations the source relies on, taken as
parameters.  `to_double` is the promotion of a `float` read from a buffer to
`FT` (`static_cast<double>`, also implicit in `Point_2(x, y)`), `to_float` is
`static_cast<float>(CGAL::to_double(.))`, and `orientation` is the orientation
CGAL derives for a polygon, on which `is_counterclockwise_oriented` and
`is_clockwise_oriented` are the two tests below. -/
structure Kernel (FT : Type) where
  to_double : Word → FT
  to_float : FT → Word
  orientation : Polygon_2 FT → Orientation

/-- The predicate `Polygon_2::is_counterclockwise_oriented()`. -/
def Kernel.is_counterclockwise_oriented {FT : Type} (K : Kernel FT) (p : Polygon_2 FT) : Bool :=
  decide (K.orientation p = Orientation.COUNTERCLOCKWISE)

/-- The predicate `Polygon_2::is_clockwise_oriented()`. -/
def Kernel.is_clockwise_oriented {FT : Type} (K : Kernel FT) (p : Polygon_2 FT) : Bool :=
  decide (K.orientation p = Orientation.CLOCKWISE)

/-- The ways a call can stop without a result. -/
inductive Fault
  /-- Line 132: `assert(points != 0)`. -/
  | assert_points_nonzero
  /-- Line 133: `assert(points > 2)`. -/
  | assert_points_gt_2
  /-- Line 162: `assert(outer.is_counterclockwise_oriented())`. -/
  | assert_outer_ccw
  /-- Line 168: `assert(hole.is_clockwise_oriented())`. -/
  | assert_hole_cw
  /-- The execution reaches a read outside the supplied buffer (undefined
  behaviour; nothing is said about what follows that read). -/
  | read_past_end
  deriving DecidableEq, Repr

/-- The fault comes from one of the four `assert` statements. -/
def Fault.is_assertion : Fault → Bool
  | Fault.read_past_end => false
  | _ => true

/-! ## `serialize_mesh` (lines 56-124) -/

/-- The buffer `serialize_mesh` returns: `total_size` is the number of words
passed to `malloc`, `data` the words stored through `data[index++] = ...` in
store order.  The cursor `index` starts at 0 and grows by one at each store,
so the k-th store goes to `data[k]` and the cursor equals `data.length`. -/
structure Buffer where
  total_size : Nat
  data : List Word
  deriving DecidableEq, Repr

/-- The write cursor `index` after all stores. -/
def Buffer.index (b : Buffer) : Nat := b.data.length

/-- Lines 66-74: the counting loops for `total_face_vertices`. -/
def total_face_vertices {FT : Type} (mesh : Mesh FT) : Nat :=
  mesh.faces.foldl (fun total face => face.foldl (fun t _ => t + 1) total) 0

/-- Line 77: `total_size`, computed in `size_t`. -/
def total_size {FT : Type} (mesh : Mesh FT) : Nat :=
  (1 + (mesh.num_vertices * 3) + 1 + mesh.num_faces + total_face_vertices mesh) % SIZE_MOD

/-- Lines 88-96: the vertex loop.  The state is `vertex_indices` and the words
stored so far. -/
def store_vertices {FT : Type} (K : Kernel FT) (mesh : Mesh FT)
    (st : List Vertex_index × List Word) : List Vertex_index × List Word :=
  mesh.vertices.foldl
    (fun s v =>
      let p := mesh.point v
      (s.1 ++ [v], s.2 ++ [K.to_float p.x, K.to_float p.y, K.to_float p.z]))
    st

/-- Lines 118-119: `std::find` followed by `std::distance`, stored as `uint32_t`.
`List.indexOf` is the position of the first occurrence, or the length when
there is none, as `std::find` returning `end()`. -/
def vertex_position (vertex_indices : List Vertex_index) (v : Vertex_index) : Word :=
  (vertex_indices.indexOf v) % UINT32_MOD

/-- Lines 104-120: the body of the face loop for one face. -/
def store_face (vertex_indices : List Vertex_index) (data : List Word)
    (face : List Vertex_index) : List Word :=
  let face_vertex_count := face.foldl (fun c _ => c + 1) 0
  let data := data ++ [face_vertex_count % UINT32_MOD]
  face.foldl (fun d v => d ++ [vertex_position vertex_indices v]) data

/-- Lines 56-124.  `none` is the `nullptr` return. -/
def serialize_mesh {FT : Type} (K : Kernel FT) (mesh : Mesh FT) : Option Buffer :=
  if mesh.num_vertices = 0 then none
  else
    let num_vertices := mesh.num_vertices
    let num_faces := mesh.num_faces
    let data : List Word := []
    let data := data ++ [num_vertices % UINT32_MOD]
    let st := store_vertices K mesh ([], data)
    let vertex_indices := st.1
    let data := st.2 ++ [num_faces % UINT32_MOD]
    let data := mesh.faces.foldl (store_face vertex_indices) data
    some ⟨total_size mesh, data⟩

/-! ## `decode_polygon` (lines 127-175) -/

/-- Lines 146-152: the point loop.  `i` is the loop counter and the last
argument the number of iterations left; `data` is `data_uint32`, `target` the
polygon `*target` the points are pushed to. -/
def read_points {FT : Type} (K : Kernel FT) (data : List Word) :
    Polygon_2 FT → Nat → Nat → Except Fault (Polygon_2 FT)
  | target, _, 0 => Except.ok target
  | target, i, n + 1 =>
    match data[i * 2]?, data[i * 2 + 1]? with
    | some x, some y =>
      read_points K data (target ++ [⟨K.to_double x, K.to_double y⟩]) (i + 1) n
    | _, _ => Except.error Fault.read_past_end

/-- Lines 142-172: the ring loop.  The state is that of the source: `points`,
`data_uint32`, `outer_set`, `outer`, `hole`, `poly`.  The first argument bounds
the number of iterations; every iteration consumes at least the count word it
reads on line 156, so with a bound above `data.length` the arm for an exhausted
bound is never taken and the outcome does not depend on the bound
(`decode_loop_fuel`). -/
def decode_loop {FT : Type} (K : Kernel FT) :
    Nat → Word → List Word → Bool → Polygon_2 FT → Polygon_2 FT →
      Polygon_with_holes FT → Except Fault (Polygon_with_holes FT)
  | 0, points, _, _, _, _, poly =>
    if points = 0 then Except.ok poly else Except.error Fault.read_past_end
  | fuel + 1, points, data, outer_set, outer, hole, poly =>
    if points = 0 then Except.ok poly
    else
      match read_points K data (if outer_set then hole else outer) 0 points with
      | Except.error e => Except.error e
      | Except.ok target =>
        match data.drop ((points * 2) % UINT32_MOD) with
        | [] => Except.error Fault.read_past_end
        | next :: data =>
          if outer_set = false then
            if K.is_counterclockwise_oriented target then
              decode_loop K fuel next data true target hole ⟨target, []⟩
            else Except.error Fault.assert_outer_ccw
          else
            if K.is_clockwise_oriented target then
              decode_loop K fuel next data true outer [] ⟨poly.outer, poly.holes ++ [target]⟩
            else Except.error Fault.assert_hole_cw

/-- Lines 127-175. -/
def decode_polygon {FT : Type} (K : Kernel FT) (data : List Word) :
    Except Fault (Polygon_with_holes FT) :=
  match data with
  | [] => Except.error Fault.read_past_end
  | points :: data_uint32 =>
    if points = 0 then Except.error Fault.assert_points_nonzero
    else if ¬ (points > 2) then Except.error Fault.assert_points_gt_2
    else
      decode_loop K (data_uint32.length + 1) points data_uint32 false [] []
        Polygon_with_holes.empty

/-! ## `generate_extruded_mesh` (lines 178-191) -/

/-- The named parameters handed to `CGAL::extrude_skeleton`:
`angles(values).maximum_height(height)` or `weights(values).maximum_height(height)`. -/
inductive Params (FT : Type)
  | angles (values : List (List FT)) (maximum_height : FT)
  | weights (values : List (List FT)) (maximum_height : FT)
  deriving DecidableEq, Repr

/-- The extrusion engine `CGAL::extrude_skeleton`, which is not in src/, taken
as a parameter: a function of the polygon and the named parameters that gives
the `bool` the call returns and the mesh it leaves in the out-parameter (which
the caller passes default-constructed). -/
abbrev Engine (FT : Type) := Polygon_with_holes FT → Params FT → Bool × Mesh FT

/-- One invocation of the engine, with its arguments. -/
structure EngineCall (FT : Type) where
  pwh : Polygon_with_holes FT
  params : Params FT
  deriving DecidableEq, Repr

/-- Lines 178-191.  `trace` is the list of engine invocations made so far; the
function returns the mesh together with the extended trace.  The `bool`
returned by `extrude_skeleton` is discarded, as in the source. -/
def generate_extruded_mesh {FT : Type} (engine : Engine FT) (pwh : Polygon_with_holes FT)
    (values : List (List FT)) (use_angles : Bool) (height : FT)
    (trace : List (EngineCall FT)) : Mesh FT × List (EngineCall FT) :=
  if use_angles then
    ((engine pwh (Params.angles values height)).2,
      trace ++ [⟨pwh, Params.angles values height⟩])
  else
    ((engine pwh (Params.weights values height)).2,
      trace ++ [⟨pwh, Params.weights values height⟩])

/-! ## The exported entry points (lines 193-248) -/

/-- Lines 208-210 (and 235-237): the inner loop filling one row.  `j` is the
loop counter and the last argument the number of iterations left. -/
def read_row {FT : Type} (K : Kernel FT) (valuesPtr : List Word) (offset : Nat) :
    List FT → Nat → Nat → Except Fault (List FT)
  | row, _, 0 => Except.ok row
  | row, j, n + 1 =>
    match valuesPtr[(offset + j) % UINT32_MOD]? with
    | some v => read_row K valuesPtr offset (row ++ [K.to_double v]) (j + 1) n
    | none => Except.error Fault.read_past_end

/-- Lines 198-214 (and, word for word, 225-241): the row unpacking loop.  The
state is `offset` and the rows pushed so far; `i` is the loop counter and the
last argument the number of iterations left. -/
def unpack_loop {FT : Type} (K : Kernel FT) (valuesPtr rowSizesPtr : List Word) :
    Nat → List (List FT) → Nat → Nat → Except Fault (List (List FT))
  | _, rows, _, 0 => Except.ok rows
  | offset, rows, i, n + 1 =>
    match rowSizesPtr[i]? with
    | none => Except.error Fault.read_past_end
    | some rowSize =>
      match read_row K valuesPtr offset [] 0 rowSize with
      | Except.error e => Except.error e
      | Except.ok row =>
        unpack_loop K valuesPtr rowSizesPtr ((offset + rowSize) % UINT32_MOD)
          (rows ++ [row]) (i + 1) n

/-- The unpacking loop from its initial state `offset = 0`, no rows, `i = 0`. -/
def unpack_rows {FT : Type} (K : Kernel FT) (valuesPtr rowSizesPtr : List Word)
    (rowCount : Nat) : Except Fault (List (List FT)) :=
  unpack_loop K valuesPtr rowSizesPtr 0 [] 0 rowCount

/-- Lines 196-220.  The result is the trace of engine invocations and the
outcome: a fault, or the returned buffer (`none` is `nullptr`). -/
def create_weighted_straight_skeleton {FT : Type} (K : Kernel FT) (engine : Engine FT)
    (data weightsPtr rowSizesPtr : List Word) (rowCount : Nat) (height : Word) :
    List (EngineCall FT) × Except Fault (Option Buffer) :=
  match unpack_rows K weightsPtr rowSizesPtr rowCount with
  | Except.error e => ([], Except.error e)
  | Except.ok polygonWeights =>
    match decode_polygon K data with
    | Except.error e => ([], Except.error e)
    | Except.ok pwh =>
      let r := generate_extruded_mesh engine pwh polygonWeights false (K.to_double height) []
      (r.2, Except.ok (serialize_mesh K r.1))

/-- Lines 223-247. -/
def create_angle_straight_skeleton {FT : Type} (K : Kernel FT) (engine : Engine FT)
    (data anglesPtr rowSizesPtr : List Word) (rowCount : Nat) (height : Word) :
    List (EngineCall FT) × Except Fault (Option Buffer) :=
  match unpack_rows K anglesPtr rowSizesPtr rowCount with
  | Except.error e => ([], Except.error e)
  | Except.ok polygonAngles =>
    match decode_polygon K data with
    | Except.error e => ([], Except.error e)
    | Except.ok pwh =>
      let r := generate_extruded_mesh engine pwh polygonAngles true (K.to_double height) []
      (r.2, Except.ok (serialize_mesh K r.1))

/-! ## The wire formats and predicates of the specification -/

/-- A ring as the host supplies it: its points as pairs of `float` words. -/
abbrev Ring := List (Word × Word)

/-- The polygon a ring denotes once its coordinates are promoted to `FT`. -/
def Kernel.promote {FT : Type} (K : Kernel FT) (ring : Ring) : Polygon_2 FT :=
  ring.map (fun p => ⟨K.to_double p.1, K.to_double p.2⟩)

/-- The inverse direction: the `float` words of the points of a polygon. -/
def Kernel.demote {FT : Type} (K : Kernel FT) (poly : Polygon_2 FT) : Ring :=
  poly.map (fun p => (K.to_float p.x, K.to_float p.y))

/-- The coordinate words of a ring: x then y of each point, in point order. -/
def ring_words (ring : Ring) : List Word :=
  ring.flatMap (fun p => [p.1, p.2])

/-- Modelled from the spec: the encoder of the polygon buffer is host code, not
in src/.  One ring on the wire is its point count followed by its x, y pairs. -/
def encode_ring (ring : Ring) : List Word :=
  ring.length :: ring_words ring

/-- Modelled from the spec: the rings on the wire, one after the other, without
the terminating zero. -/
def encode_ring_list (rings : List Ring) : List Word :=
  rings.flatMap encode_ring

/-- Modelled from the spec: the polygon buffer wire format of section 6, the
rings in order followed by a terminating zero point count. -/
def encode_rings (rings : List Ring) : List Word :=
  encode_ring_list rings ++ [0]

/-- The rings of a polygon with holes, outer first, as `float` word pairs. -/
def Kernel.rings_of {FT : Type} (K : Kernel FT) (pwh : Polygon_with_holes FT) : List Ring :=
  K.demote pwh.outer :: pwh.holes.map K.demote

/-- Twice the signed area of a closed ring (shoelace sum over consecutive
points, the last point being followed by the first). -/
def signed_area2 {FT : Type} [LinearOrderedRing FT] (p : Polygon_2 FT) : FT :=
  ((p.zip (p.rotate 1)).map (fun e => e.1.x * e.2.y - e.2.x * e.1.y)).sum

/-- Modelled from the spec: the CGAL orientation predicate is not in src/; the
spec computes the orientation of a ring from its signed area. -/
def area_orientation {FT : Type} [LinearOrderedRing FT] (p : Polygon_2 FT) : Orientation :=
  if 0 < signed_area2 p then Orientation.COUNTERCLOCKWISE
  else if signed_area2 p < 0 then Orientation.CLOCKWISE
  else Orientation.COLLINEAR

/-- A kernel whose orientation is the one derived from the signed area. -/
def area_kernel {FT : Type} [LinearOrderedRing FT] (to_double : Word → FT)
    (to_float : FT → Word) : Kernel FT :=
  ⟨to_double, to_float, area_orientation⟩

/-- The exact value of a finite IEEE-754 single in units of `2^-149`, from its
bit pattern: sign bit 31, exponent bits 23-30, fraction bits 0-22. -/
def float_value (w : Word) : Int :=
  let e := w / 2 ^ 23 % 2 ^ 8
  let m := w % 2 ^ 23
  let magnitude : Nat := if e = 0 then m else (2 ^ 23 + m) * 2 ^ (e - 1)
  if w / 2 ^ 31 % 2 = 1 then - (magnitude : Int) else (magnitude : Int)

/-- The bit pattern of the single with a given exact value in units of
`2^-149`, for the values that are representable: the exponent field is the
least `e` with magnitude below `2^(e+23)`. -/
def float_bits (v : Int) : Word :=
  let n := v.natAbs
  let e := ((List.range 255).find? (fun e => decide (n < 2 ^ (e + 23)))).getD 255
  let body := if e ≤ 1 then n else e * 2 ^ 23 + (n / 2 ^ (e - 1) - 2 ^ 23)
  if v < 0 then 2 ^ 31 + body else body

/-- A concrete kernel over exact values in units of `2^-149`, used to evaluate
the definitions on concrete buffers. -/
def exact_kernel : Kernel Int := area_kernel float_value float_bits

/-- Modelled from the spec: the rings of a polygon as the orchestrator counts
them, the outer boundary (when it has points) followed by the holes. -/
def ring_sizes {FT : Type} (pwh : Polygon_with_holes FT) : List Nat :=
  (if pwh.outer.length = 0 then [] else [pwh.outer.length]) ++ pwh.holes.map List.length

/-- Modelled from the spec: the configuration mismatch of section 4.3, the
number of rows differs from the ring count or some row length differs from the
point count of its ring. -/
def config_mismatch {FT : Type} (pwh : Polygon_with_holes FT) (values : List (List FT)) : Prop :=
  values.map List.length ≠ ring_sizes pwh

/-- The offsets of section 4.2: `offset_0 = 0` and
`offset_i = offset_{i-1} + rowSizes[i-1]`. -/
def row_offset (rowSizes : List Nat) : Nat → Nat
  | 0 => 0
  | i + 1 => row_offset rowSizes i + rowSizes.getD i 0

/-- Row `i` of section 4.2: `values[offset_i .. offset_i + rowSizes[i])`, each
value promoted to `FT`. -/
def spec_row {FT : Type} (K : Kernel FT) (values : List Word) (rowSizes : List Nat)
    (i : Nat) : List FT :=
  (((values.drop (row_offset rowSizes i)).take (rowSizes.getD i 0)).map K.to_double)

/-! ## Sample inputs -/

/-- The bit pattern of `1.0f`. -/
def f_one : Word := 0x3F800000

/-- The bit pattern of `10.0f`. -/
def f_ten : Word := 0x41200000

/-- The square `(0,0),(10,0),(10,10),(0,10)` of the spec, counter-clockwise. -/
def square : Ring := [(0, 0), (f_ten, 0), (f_ten, f_ten), (0, f_ten)]

/-- A clockwise triangle `(0,0),(0,1),(1,0)`. -/
def cw_triangle : Ring := [(0, 0), (0, f_one), (f_one, 0)]

/-- A clockwise triangle inside the square, `(1,1),(1,2),(2,1)`; `0x40000000`
is the bit pattern of `2.0f`. -/
def cw_hole : Ring := [(f_one, f_one), (f_one, 0x40000000), (0x40000000, f_one)]

/-- The words of one vertex in the vertex block: its x, y, z as `float`. -/
def vertex_words {FT : Type} (K : Kernel FT) (mesh : Mesh FT) (v : Vertex_index) : List Word :=
  [K.to_float (mesh.point v).x, K.to_float (mesh.point v).y, K.to_float (mesh.point v).z]

/-- The words of one face in the face block: its vertex count, then the
position in the vertex enumeration of each of its vertices, in face order. -/
def face_words {FT : Type} (mesh : Mesh FT) (face : List Vertex_index) : List Word :=
  face.length :: face.map (fun v => mesh.vertices.indexOf v)

/-- The mesh buffer wire format of section 6, written from the spec: vertex
count, the vertex block, face count, the face block. -/
def mesh_layout {FT : Type} (K : Kernel FT) (mesh : Mesh FT) : List Word :=
  [mesh.num_vertices] ++ mesh.vertices.flatMap (vertex_words K mesh)
    ++ [mesh.num_faces] ++ mesh.faces.flatMap (face_words mesh)

/-- The sum of the vertex counts of the faces. -/
def face_size_sum {FT : Type} (mesh : Mesh FT) : Nat :=
  (mesh.faces.map List.length).sum

/-- The counts of a mesh fit the 32-bit `size_type` of `Surface_mesh`. -/
def Mesh.fits_uint32 {FT : Type} (mesh : Mesh FT) : Prop :=
  mesh.num_vertices < UINT32_MOD ∧ mesh.num_faces < UINT32_MOD ∧
    ∀ face ∈ mesh.faces, face.length < UINT32_MOD

/-- A square pyramid: four base corners, an apex, a quadrilateral base and four
triangular sides. -/
def pyramid : Mesh Int :=
  { vertices := [0, 1, 2, 3, 4]
    point := fun v =>
      match v with
      | 0 => ⟨0, 0, 0⟩
      | 1 => ⟨10, 0, 0⟩
      | 2 => ⟨10, 10, 0⟩
      | 3 => ⟨0, 10, 0⟩
      | _ => ⟨5, 5, 5⟩
    faces := [[3, 2, 1, 0], [0, 1, 4], [1, 2, 4], [2, 3, 4], [3, 0, 4]] }

/-- The polygon of the spec scenario: the square, no holes. -/
def square_pwh : Polygon_with_holes Int := ⟨exact_kernel.promote square, []⟩

/-- A fake engine that returns a fixed pyramid mesh, whatever it is given. -/
def pyramid_engine : Engine Int := fun _ _ => (true, pyramid)

/-- A uniform weight row of length 3: one value short for the square. -/
def short_row : List (List Int) := [[float_value f_one, float_value f_one, float_value f_one]]

/-- Modelled from the spec: the engine of section 4.3 yields a mesh or a failure
(`Mesh | ExtrusionFailure`), never both.  For `extrude_skeleton` this reads: a
call that returns `false` leaves no vertex in the out-parameter. -/
def engine_conforms {FT : Type} (engine : Engine FT) : Prop :=
  ∀ pwh params, (engine pwh params).1 = false → (engine pwh params).2.num_vertices = 0

/-- A fake engine that reports failure and leaves the out-parameter empty. -/
def empty_failing_engine : Engine Int := fun _ _ => (false, Mesh.empty)

/-- The polygon buffer of the spec scenario: the square and the terminator. -/
def square_buffer : List Word := encode_rings [square]

/-- The flat weights `[1,1,1,1]` of the spec scenario. -/
def unit_weights : List Word := [f_one, f_one, f_one, f_one]

/-- The row `[1,1,1,1]` once unpacked. -/
def unit_row : List (List Int) :=
  [[float_value f_one, float_value f_one, float_value f_one, float_value f_one]]

/-- The identity-to-index map of sections 4.4 and 9, written from the spec: one
pass over the vertex enumeration that gives each vertex the next index.  The
state is the map and the next index; a vertex met again replaces its entry. -/
def build_index_map (vertices : List Vertex_index) : Vertex_index → Option Nat :=
  (vertices.foldl
    (fun (st : (Vertex_index → Option Nat) × Nat) v =>
      ((fun u => if u = v then some st.2 else st.1 u), st.2 + 1))
    ((fun _ => none), 0)).1

/-- The index word of a face vertex when it is looked up in the map (a vertex
without an entry gives 0), stored as `uint32_t`. -/
def map_position (index_of : Vertex_index → Option Nat) (v : Vertex_index) : Word :=
  ((index_of v).getD 0) % UINT32_MOD

/-- The body of the face loop with the map lookup in place of the scan. -/
def store_face_with_map (index_of : Vertex_index → Option Nat) (data : List Word)
    (face : List Vertex_index) : List Word :=
  let face_vertex_count := face.foldl (fun c _ => c + 1) 0
  let data := data ++ [face_vertex_count % UINT32_MOD]
  face.foldl (fun d v => d ++ [map_position index_of v]) data

/-- The encoder the spec asks for: `serialize_mesh` with the per-face-vertex
linear search replaced by one map built once over the enumeration. -/
def serialize_mesh_with_map {FT : Type} (K : Kernel FT) (mesh : Mesh FT) : Option Buffer :=
  if mesh.num_vertices = 0 then none
  else
    let num_vertices := mesh.num_vertices
    let num_faces := mesh.num_faces
    let data : List Word := []
    let data := data ++ [num_vertices % UINT32_MOD]
    let st := store_vertices K mesh ([], data)
    let index_of := build_index_map st.1
    let data := st.2 ++ [num_faces % UINT32_MOD]
    let data := mesh.faces.foldl (store_face_with_map index_of) data
    some ⟨total_size mesh, data⟩

/-- A mesh whose vertex enumeration repeats vertex 0: the scan and the map
then disagree on its index. -/
def repeated_vertex_mesh : Mesh Int :=
  { vertices := [0, 1, 0]
    point := fun _ => ⟨0, 0, 0⟩
    faces := [[0, 1, 0]] }

/-! # Theorems -/

/-! ## `serialize_mesh` -/

theorem foldl_count {α : Type} (l : List α) (t : Nat) :
    l.foldl (fun t _ => t + 1) t = t + l.length := by
  induction l generalizing t with
  | nil => simp
  | cons a l ih => simp only [List.foldl_cons, ih, List.length_cons]; omega

theorem foldl_face_count (faces : List (List Vertex_index)) (t : Nat) :
    faces.foldl (fun total face => face.foldl (fun t _ => t + 1) total) t
      = t + (faces.map List.length).sum := by
  have h : (fun (total : Nat) (face : List Vertex_index) => face.foldl (fun t _ => t + 1) total)
      = fun total face => total + face.length := by
    funext total face
    exact foldl_count face total
  rw [h]
  induction faces generalizing t with
  | nil => simp
  | cons f faces ih =>
    simp only [List.foldl_cons, ih, List.map_cons, List.sum_cons]; omega

theorem total_face_vertices_eq {FT : Type} (mesh : Mesh FT) :
    total_face_vertices mesh = face_size_sum mesh := by
  simp [total_face_vertices, face_size_sum, foldl_face_count]

theorem foldl_store_vertices {FT : Type} (K : Kernel FT) (mesh : Mesh FT)
    (l : List Vertex_index) (st : List Vertex_index × List Word) :
    l.foldl
        (fun s v =>
          let p := mesh.point v
          (s.1 ++ [v], s.2 ++ [K.to_float p.x, K.to_float p.y, K.to_float p.z]))
        st
      = (st.1 ++ l, st.2 ++ l.flatMap (vertex_words K mesh)) := by
  induction l generalizing st with
  | nil => simp
  | cons v l ih => simp [ih, vertex_words, List.flatMap_cons]

theorem store_vertices_eq {FT : Type} (K : Kernel FT) (mesh : Mesh FT)
    (st : List Vertex_index × List Word) :
    store_vertices K mesh st
      = (st.1 ++ mesh.vertices, st.2 ++ mesh.vertices.flatMap (vertex_words K mesh)) :=
  foldl_store_vertices K mesh mesh.vertices st

theorem foldl_store_index (vi : List Vertex_index) (face : List Vertex_index) (d : List Word) :
    face.foldl (fun d v => d ++ [vertex_position vi v]) d
      = d ++ face.map (vertex_position vi) := by
  induction face generalizing d with
  | nil => simp
  | cons v face ih => simp [ih]

theorem store_face_eq (vi : List Vertex_index) (d : List Word) (face : List Vertex_index) :
    store_face vi d face
      = d ++ (face.length % UINT32_MOD :: face.map (vertex_position vi)) := by
  simp [store_face, foldl_store_index, foldl_count]

theorem foldl_store_face (vi : List Vertex_index) (faces : List (List Vertex_index))
    (d : List Word) :
    faces.foldl (store_face vi) d
      = d ++ faces.flatMap
          (fun face => face.length % UINT32_MOD :: face.map (vertex_position vi)) := by
  induction faces generalizing d with
  | nil => simp
  | cons f faces ih => simp [ih, store_face_eq, List.flatMap_cons]

/-- The words `serialize_mesh` stores, for a mesh with a vertex. -/
theorem serialize_mesh_eq {FT : Type} (K : Kernel FT) (mesh : Mesh FT)
    (hV : mesh.num_vertices ≠ 0) :
    serialize_mesh K mesh = some ⟨total_size mesh,
      [mesh.num_vertices % UINT32_MOD] ++ mesh.vertices.flatMap (vertex_words K mesh)
        ++ [mesh.num_faces % UINT32_MOD]
        ++ mesh.faces.flatMap
            (fun face => face.length % UINT32_MOD
              :: face.map (vertex_position mesh.vertices))⟩ := by
  simp [serialize_mesh, hV, store_vertices_eq, foldl_store_face]

theorem length_vertex_block {FT : Type} (K : Kernel FT) (mesh : Mesh FT)
    (l : List Vertex_index) :
    (l.flatMap (vertex_words K mesh)).length = 3 * l.length := by
  induction l with
  | nil => simp
  | cons v l ih => simp [List.flatMap_cons, ih, vertex_words]; omega

theorem length_face_block (vi : List Vertex_index) (faces : List (List Vertex_index)) :
    (faces.flatMap
        (fun face => face.length % UINT32_MOD :: face.map (vertex_position vi))).length
      = faces.length + (faces.map List.length).sum := by
  induction faces with
  | nil => simp
  | cons f faces ih => simp [List.flatMap_cons, ih]; omega

/-- C1. For every mesh with at least one vertex, `serialize_mesh` returns a
buffer in which the number of words written (the final write cursor) is exactly
`1 + 3*V + 1 + F + (sum of the face sizes)`; whenever that number is
representable in `size_t`, it is also the allocated `total_size`, so the cursor
ends exactly at `total_size` and each allocated word is written once. -/
theorem serialize_mesh_word_count {FT : Type} (K : Kernel FT) (mesh : Mesh FT)
    (hV : 0 < mesh.num_vertices) :
    ∃ buf, serialize_mesh K mesh = some buf ∧
      buf.index = 1 + 3 * mesh.num_vertices + 1 + mesh.num_faces + face_size_sum mesh ∧
      (1 + 3 * mesh.num_vertices + 1 + mesh.num_faces + face_size_sum mesh < SIZE_MOD →
        buf.total_size = 1 + 3 * mesh.num_vertices + 1 + mesh.num_faces + face_size_sum mesh ∧
        buf.index = buf.total_size) := by
  refine ⟨_, serialize_mesh_eq K mesh (by omega), ?_, ?_⟩
  · simp only [Buffer.index, List.length_append, List.length_singleton, length_vertex_block,
      length_face_block, Mesh.num_vertices, Mesh.num_faces, face_size_sum]
    omega
  · intro h
    have ht : total_size mesh
        = 1 + 3 * mesh.num_vertices + 1 + mesh.num_faces + face_size_sum mesh := by
      rw [total_size, total_face_vertices_eq, Nat.mul_comm mesh.num_vertices 3]
      exact Nat.mod_eq_of_lt h
    refine ⟨ht, ?_⟩
    simp only [Buffer.index, List.length_append, List.length_singleton, length_vertex_block,
      length_face_block, ht]
    simp only [Mesh.num_vertices, Mesh.num_faces, face_size_sum]
    omega

/-- Witness of C1: the square pyramid, 5 vertices, 5 faces, 16 face vertices. -/
theorem serialize_mesh_word_count_witness :
    0 < pyramid.num_vertices ∧
    1 + 3 * pyramid.num_vertices + 1 + pyramid.num_faces + face_size_sum pyramid = 38 ∧
    ∃ buf, serialize_mesh exact_kernel pyramid = some buf ∧
      buf.index = 1 + 3 * pyramid.num_vertices + 1 + pyramid.num_faces + face_size_sum pyramid ∧
      (1 + 3 * pyramid.num_vertices + 1 + pyramid.num_faces + face_size_sum pyramid < SIZE_MOD →
        buf.total_size
          = 1 + 3 * pyramid.num_vertices + 1 + pyramid.num_faces + face_size_sum pyramid ∧
        buf.index = buf.total_size) :=
  ⟨by decide, by decide, serialize_mesh_word_count exact_kernel pyramid (by decide)⟩

theorem vertex_position_eq (vi : List Vertex_index) (v : Vertex_index)
    (h : vi.length < UINT32_MOD) : vertex_position vi v = vi.indexOf v := by
  have hle : vi.indexOf v ≤ vi.length := List.indexOf_le_length
  exact Nat.mod_eq_of_lt (by omega)

theorem face_block_eq {FT : Type} (mesh : Mesh FT) (hfit : mesh.fits_uint32)
    (faces : List (List Vertex_index)) (hsub : ∀ face ∈ faces, face ∈ mesh.faces) :
    faces.flatMap
        (fun face => face.length % UINT32_MOD :: face.map (vertex_position mesh.vertices))
      = faces.flatMap (face_words mesh) := by
  induction faces with
  | nil => simp
  | cons f faces ih =>
    have hf : f.length < UINT32_MOD := hfit.2.2 f (hsub f (List.mem_cons_self f faces))
    have hv : f.map (vertex_position mesh.vertices)
        = f.map (fun v => mesh.vertices.indexOf v) :=
      List.map_congr_left (fun v _ => vertex_position_eq mesh.vertices v hfit.1)
    simp only [List.flatMap_cons, face_words, Nat.mod_eq_of_lt hf, hv]
    rw [← ih (fun face h => hsub face (List.mem_cons_of_mem f h))]

/-- C2. For every mesh with at least one vertex (its counts fitting the 32-bit
size type of the mesh), the buffer `serialize_mesh` produces is, in order: the
vertex count; x, y, z of each vertex in enumeration order; the face count; and
for each face in order its vertex count followed by the positions of its
vertices in the enumeration, in face order. -/
theorem serialize_mesh_layout {FT : Type} (K : Kernel FT) (mesh : Mesh FT)
    (hV : 0 < mesh.num_vertices) (hfit : mesh.fits_uint32) :
    ∃ buf, serialize_mesh K mesh = some buf ∧
      buf.data = [mesh.num_vertices] ++ mesh.vertices.flatMap (vertex_words K mesh)
        ++ [mesh.num_faces] ++ mesh.faces.flatMap (face_words mesh) ∧
      buf.data = mesh_layout K mesh := by
  refine ⟨_, serialize_mesh_eq K mesh (by omega), ?_, ?_⟩
  · simp only [face_block_eq mesh hfit mesh.faces (fun _ h => h),
      Nat.mod_eq_of_lt hfit.1, Nat.mod_eq_of_lt hfit.2.1]
  · simp only [mesh_layout, face_block_eq mesh hfit mesh.faces (fun _ h => h),
      Nat.mod_eq_of_lt hfit.1, Nat.mod_eq_of_lt hfit.2.1]

theorem pyramid_fits : pyramid.fits_uint32 := by
  refine ⟨by decide, by decide, ?_⟩
  intro face hface
  have h : ∀ f ∈ pyramid.faces, f.length ≤ 4 := by decide
  have := h face hface
  have h4 : (4 : Nat) < UINT32_MOD := by decide
  omega

/-- Witness of C2: the pyramid and the 38 words of its buffer. -/
theorem serialize_mesh_layout_witness :
    0 < pyramid.num_vertices ∧ pyramid.fits_uint32 ∧
    mesh_layout exact_kernel pyramid
      = [5, 0, 0, 0, 10, 0, 0, 10, 10, 0, 0, 10, 0, 5, 5, 5,
          5, 4, 3, 2, 1, 0, 3, 0, 1, 4, 3, 1, 2, 4, 3, 2, 3, 4, 3, 3, 0, 4] ∧
    ∃ buf, serialize_mesh exact_kernel pyramid = some buf ∧
      buf.data = [pyramid.num_vertices] ++ pyramid.vertices.flatMap (vertex_words exact_kernel pyramid)
        ++ [pyramid.num_faces] ++ pyramid.faces.flatMap (face_words pyramid) ∧
      buf.data = mesh_layout exact_kernel pyramid :=
  ⟨by decide, pyramid_fits, by rfl,
    serialize_mesh_layout exact_kernel pyramid (by decide) pyramid_fits⟩

/-- C3. `serialize_mesh` returns the absent buffer exactly when the mesh has
zero vertices; for a mesh with at least one vertex (fewer than `2^32`, the
range of the mesh size type) it returns a buffer whose first word is the vertex
count, which is not zero. -/
theorem serialize_mesh_none_iff {FT : Type} (K : Kernel FT) (mesh : Mesh FT) :
    (serialize_mesh K mesh = none ↔ mesh.num_vertices = 0) ∧
    (0 < mesh.num_vertices → mesh.num_vertices < UINT32_MOD →
      ∃ buf, serialize_mesh K mesh = some buf ∧
        buf.data.head? = some mesh.num_vertices ∧ mesh.num_vertices ≠ 0) := by
  constructor
  · constructor
    · intro h
      by_contra hV
      rw [serialize_mesh_eq K mesh hV] at h
      exact Option.noConfusion h
    · intro h
      simp [serialize_mesh, h]
  · intro hV hlt
    refine ⟨_, serialize_mesh_eq K mesh (by omega), ?_, by omega⟩
    simp [Nat.mod_eq_of_lt hlt]

/-- Witness of C3: the pyramid has five vertices, the mesh without vertices
gives the absent buffer. -/
theorem serialize_mesh_none_iff_witness :
    (0 < pyramid.num_vertices ∧ pyramid.num_vertices < UINT32_MOD) ∧
    (∃ buf, serialize_mesh exact_kernel pyramid = some buf ∧
        buf.data.head? = some pyramid.num_vertices ∧ pyramid.num_vertices ≠ 0) ∧
    serialize_mesh exact_kernel (Mesh.empty : Mesh Int) = none :=
  ⟨⟨by decide, by decide⟩,
    (serialize_mesh_none_iff exact_kernel pyramid).2 (by decide) (by decide),
    (serialize_mesh_none_iff exact_kernel Mesh.empty).1.2 rfl⟩

/-! ## `decode_polygon` -/

theorem length_ring_words (ring : Ring) : (ring_words ring).length = ring.length * 2 := by
  induction ring with
  | nil => rfl
  | cons p ring ih =>
    simp only [ring_words, List.flatMap_cons, List.length_append, List.length_cons,
      List.length_nil] at ih ⊢
    omega

/-- The point loop reads a whole ring that lies in the buffer at its cursor. -/
theorem read_points_ring {FT : Type} (K : Kernel FT) (ring : Ring) (pre rest : List Word)
    (target : Polygon_2 FT) (i : Nat) (hpre : pre.length = i * 2) :
    read_points K (pre ++ (ring_words ring ++ rest)) target i ring.length
      = Except.ok (target ++ K.promote ring) := by
  induction ring generalizing pre target i with
  | nil => simp [read_points, Kernel.promote]
  | cons p ring ih =>
    have hx : (pre ++ (ring_words (p :: ring) ++ rest))[i * 2]? = some p.1 := by
      rw [List.getElem?_append_right (by omega)]
      simp [hpre, ring_words, List.flatMap_cons]
    have hy : (pre ++ (ring_words (p :: ring) ++ rest))[i * 2 + 1]? = some p.2 := by
      rw [List.getElem?_append_right (by omega)]
      have : i * 2 + 1 - pre.length = 1 := by omega
      simp [this, ring_words, List.flatMap_cons]
    have hdata : pre ++ (ring_words (p :: ring) ++ rest)
        = (pre ++ [p.1, p.2]) ++ (ring_words ring ++ rest) := by
      simp [ring_words, List.flatMap_cons]
    simp only [List.length_cons, read_points, hx, hy]
    rw [hdata, ih (pre ++ [p.1, p.2]) _ (i + 1) (by simp [hpre]; omega)]
    simp [Kernel.promote]

/-- Advancing `data_uint32` by `points * 2` skips exactly the ring. -/
theorem drop_ring_words (ring : Ring) (rest : List Word) (h : ring.length < 2 ^ 31) :
    (ring_words ring ++ rest).drop ((ring.length * 2) % UINT32_MOD) = rest := by
  have hmod : (ring.length * 2) % UINT32_MOD = (ring_words ring).length := by
    rw [length_ring_words]
    exact Nat.mod_eq_of_lt (by simp only [UINT32_MOD]; omega)
  rw [hmod, List.drop_left]

/-- One iteration of the ring loop on the first ring. -/
theorem decode_loop_outer {FT : Type} (K : Kernel FT) (ring : Ring) (next : Word)
    (rest : List Word) (fuel : Nat) (hole : Polygon_2 FT) (poly : Polygon_with_holes FT)
    (h0 : 0 < ring.length) (h : ring.length < 2 ^ 31) :
    decode_loop K (fuel + 1) ring.length (ring_words ring ++ next :: rest) false [] hole poly
      = if K.is_counterclockwise_oriented (K.promote ring) then
          decode_loop K fuel next rest true (K.promote ring) hole ⟨K.promote ring, []⟩
        else Except.error Fault.assert_outer_ccw := by
  have hr := read_points_ring K ring [] (next :: rest) [] 0 rfl
  simp only [List.nil_append] at hr
  have hne : ring.length ≠ 0 := by omega
  simp [decode_loop, hne, hr, drop_ring_words ring (next :: rest) h]

/-- One iteration of the ring loop on a hole. -/
theorem decode_loop_hole {FT : Type} (K : Kernel FT) (ring : Ring) (next : Word)
    (rest : List Word) (fuel : Nat) (outer : Polygon_2 FT) (poly : Polygon_with_holes FT)
    (h0 : 0 < ring.length) (h : ring.length < 2 ^ 31) :
    decode_loop K (fuel + 1) ring.length (ring_words ring ++ next :: rest) true outer [] poly
      = if K.is_clockwise_oriented (K.promote ring) then
          decode_loop K fuel next rest true outer [] ⟨poly.outer, poly.holes ++ [K.promote ring]⟩
        else Except.error Fault.assert_hole_cw := by
  have hr := read_points_ring K ring [] (next :: rest) [] 0 rfl
  simp only [List.nil_append] at hr
  have hne : ring.length ≠ 0 := by omega
  simp [decode_loop, hne, hr, drop_ring_words ring (next :: rest) h]

/-- The ring loop stops with the polygon built so far at a zero point count. -/
theorem decode_loop_zero {FT : Type} (K : Kernel FT) (fuel : Nat) (data : List Word)
    (outer_set : Bool) (outer hole : Polygon_2 FT) (poly : Polygon_with_holes FT) :
    decode_loop K fuel 0 data outer_set outer hole poly = Except.ok poly := by
  cases fuel <;> simp [decode_loop]

/-- The iteration bound of `decode_loop` is never reached: any bound above the
number of words left gives the same outcome. -/
theorem decode_loop_fuel {FT : Type} (K : Kernel FT) (fuel : Nat) :
    ∀ (points : Word) (data : List Word) (outer_set : Bool) (outer hole : Polygon_2 FT)
      (poly : Polygon_with_holes FT), data.length < fuel →
      decode_loop K fuel points data outer_set outer hole poly
        = decode_loop K (data.length + 1) points data outer_set outer hole poly := by
  induction fuel using Nat.strong_induction_on with
  | _ fuel ih =>
    intro points data outer_set outer hole poly hlt
    cases fuel with
    | zero => omega
    | succ n =>
      simp only [decode_loop]
      by_cases hp : points = 0
      · simp [hp]
      · simp only [hp, if_false]
        cases hr : read_points K data (if outer_set then hole else outer) 0 points with
        | error e => rfl
        | ok target =>
          cases hd : data.drop (points * 2 % UINT32_MOD) with
          | nil => rfl
          | cons next data1 =>
            have hlen : data1.length < data.length := by
              have := congrArg List.length hd
              simp only [List.length_drop, List.length_cons] at this
              omega
            have e1 := fun a b c d =>
              ih n (Nat.lt_succ_self n) next data1 a b c d (by omega)
            have e2 := fun a b c d =>
              ih data.length (by omega) next data1 a b c d hlen
            simp only [e1, e2]

theorem encode_ring_list_cons (ring : Ring) (rings : List Ring) :
    encode_ring_list (ring :: rings)
      = ring.length :: (ring_words ring ++ encode_ring_list rings) := by
  simp [encode_ring_list, encode_ring, List.flatMap_cons]

theorem length_le_encode_ring_list (rings : List Ring) :
    rings.length ≤ (encode_ring_list rings).length := by
  induction rings with
  | nil => simp
  | cons r rings ih =>
    rw [encode_ring_list_cons]
    simp only [List.length_cons, List.length_append]
    omega

/-- The ring loop over a list of holes lying in the buffer: either all of them
are clockwise and the loop reaches the word after them with every hole added,
or it stops on the hole assertion. -/
theorem decode_loop_holes {FT : Type} (K : Kernel FT) (holes : List Ring)
    (hlen : ∀ h ∈ holes, 0 < h.length ∧ h.length < 2 ^ 31)
    (w : Word) (rest : List Word) (fuel : Nat) (outer : Polygon_2 FT) :
    ∀ (poly : Polygon_with_holes FT) (next : Word) (data : List Word),
      encode_ring_list holes ++ w :: rest = next :: data →
      decode_loop K (fuel + holes.length) next data true outer [] poly
        = if holes.all (fun h => K.is_clockwise_oriented (K.promote h)) then
            decode_loop K fuel w rest true outer []
              ⟨poly.outer, poly.holes ++ holes.map K.promote⟩
          else Except.error Fault.assert_hole_cw := by
  induction holes with
  | nil =>
    intro poly next data hd
    simp only [encode_ring_list, List.flatMap_nil, List.nil_append, List.cons.injEq] at hd
    obtain ⟨rfl, rfl⟩ := hd
    simp
  | cons h hs ih =>
    intro poly next data hd
    have hh := hlen h (List.mem_cons_self h hs)
    have hhs : ∀ r ∈ hs, 0 < r.length ∧ r.length < 2 ^ 31 :=
      fun r hr => hlen r (List.mem_cons_of_mem h hr)
    obtain ⟨next1, data1, h1⟩ : ∃ next1 data1,
        encode_ring_list hs ++ w :: rest = next1 :: data1 := by
      cases hc : encode_ring_list hs ++ w :: rest with
      | nil => simp at hc
      | cons a l => exact ⟨a, l, rfl⟩
    rw [encode_ring_list_cons, List.cons_append, List.append_assoc, h1] at hd
    simp only [List.cons.injEq] at hd
    obtain ⟨rfl, rfl⟩ := hd
    have hf : fuel + (h :: hs).length = (fuel + hs.length) + 1 := by
      simp only [List.length_cons]; omega
    rw [hf, decode_loop_hole K h next1 data1 _ outer poly hh.1 hh.2]
    by_cases hcw : K.is_clockwise_oriented (K.promote h) = true
    · simp only [hcw, if_true, List.all_cons, Bool.true_and]
      rw [ih hhs _ next1 data1 h1]
      simp
    · simp [hcw]

/-- The outcome of `decode_polygon` on a buffer that starts with the records of
a first ring and of a list of further rings, followed by at least one word. -/
theorem decode_polygon_rings {FT : Type} (K : Kernel FT) (r0 : Ring) (holes : List Ring)
    (w : Word) (rest : List Word) (h3 : 3 ≤ r0.length) (h0 : r0.length < 2 ^ 31)
    (hlen : ∀ h ∈ holes, 0 < h.length ∧ h.length < 2 ^ 31) :
    ∃ fuel, decode_polygon K (encode_ring_list (r0 :: holes) ++ w :: rest)
      = if K.is_counterclockwise_oriented (K.promote r0) then
          if holes.all (fun h => K.is_clockwise_oriented (K.promote h)) then
            decode_loop K fuel w rest true (K.promote r0) []
              ⟨K.promote r0, holes.map K.promote⟩
          else Except.error Fault.assert_hole_cw
        else Except.error Fault.assert_outer_ccw := by
  obtain ⟨next, data, hd⟩ : ∃ next data,
      encode_ring_list holes ++ w :: rest = next :: data := by
    cases hc : encode_ring_list holes ++ w :: rest with
    | nil => simp at hc
    | cons a l => exact ⟨a, l, rfl⟩
  have hge : holes.length ≤ (ring_words r0 ++ next :: data).length := by
    have h1 := length_le_encode_ring_list holes
    have h2 := congrArg List.length hd
    simp only [List.length_append, List.length_cons] at h2 ⊢
    omega
  refine ⟨(ring_words r0 ++ next :: data).length - holes.length, ?_⟩
  rw [encode_ring_list_cons, List.cons_append, List.append_assoc, hd]
  have hne : r0.length ≠ 0 := by omega
  have hgt : r0.length > 2 := by omega
  simp only [decode_polygon, hne, hgt, if_false, not_true_eq_false]
  rw [decode_loop_outer K r0 next data _ [] _ (by omega) h0]
  by_cases hccw : K.is_counterclockwise_oriented (K.promote r0) = true
  · simp only [hccw, if_true]
    have hf : (ring_words r0 ++ next :: data).length
        = ((ring_words r0 ++ next :: data).length - holes.length) + holes.length := by
      omega
    rw [hf, decode_loop_holes K holes hlen w rest _ (K.promote r0) _ next data hd]
    simp
  · simp [hccw]

/-- The outcome of `decode_polygon` on a zero-terminated ring list. -/
theorem decode_polygon_encode_rings {FT : Type} (K : Kernel FT) (r0 : Ring)
    (holes : List Ring) (tail : List Word) (h3 : 3 ≤ r0.length) (h0 : r0.length < 2 ^ 31)
    (hlen : ∀ h ∈ holes, 0 < h.length ∧ h.length < 2 ^ 31) :
    decode_polygon K (encode_rings (r0 :: holes) ++ tail)
      = if K.is_counterclockwise_oriented (K.promote r0) then
          if holes.all (fun h => K.is_clockwise_oriented (K.promote h)) then
            Except.ok ⟨K.promote r0, holes.map K.promote⟩
          else Except.error Fault.assert_hole_cw
        else Except.error Fault.assert_outer_ccw := by
  obtain ⟨fuel, hf⟩ := decode_polygon_rings K r0 holes 0 tail h3 h0 hlen
  have he : encode_rings (r0 :: holes) ++ tail
      = encode_ring_list (r0 :: holes) ++ 0 :: tail := by
    simp [encode_rings]
  rw [he, hf, decode_loop_zero]

theorem demote_promote {FT : Type} (K : Kernel FT) (ring : Ring)
    (hrt : ∀ p ∈ ring, K.to_float (K.to_double p.1) = p.1 ∧ K.to_float (K.to_double p.2) = p.2) :
    K.demote (K.promote ring) = ring := by
  induction ring with
  | nil => rfl
  | cons p ring ih =>
    have hp := hrt p (List.mem_cons_self p ring)
    have ht := ih (fun q hq => hrt q (List.mem_cons_of_mem p hq))
    simp only [Kernel.demote, Kernel.promote, List.map_cons, List.map_map] at ht ⊢
    rw [ht, hp.1, hp.2]

theorem map_demote_promote {FT : Type} (K : Kernel FT) (rings : List Ring)
    (hrt : ∀ r ∈ rings, ∀ p ∈ r,
      K.to_float (K.to_double p.1) = p.1 ∧ K.to_float (K.to_double p.2) = p.2) :
    (rings.map K.promote).map K.demote = rings := by
  induction rings with
  | nil => rfl
  | cons r rings ih =>
    simp only [List.map_cons]
    rw [demote_promote K r (hrt r (List.mem_cons_self r rings)),
      ih (fun q hq => hrt q (List.mem_cons_of_mem r hq))]

/-- C4. Round trip of the ring codec: for a counter-clockwise first ring and
clockwise further rings, each with at least 3 (and fewer than `2^31`) points,
`decode_polygon` of the wire encoding returns the polygon whose outer boundary
is the first ring and whose holes are the other rings in the same order, point
for point; and, for coordinates that survive the promotion to `FT` and back,
encoding the decoded polygon again gives the same buffer. -/
theorem ring_codec_round_trip {FT : Type} (K : Kernel FT) (r0 : Ring) (holes : List Ring)
    (hlen : ∀ r ∈ r0 :: holes, 3 ≤ r.length ∧ r.length < 2 ^ 31)
    (hccw : K.orientation (K.promote r0) = Orientation.COUNTERCLOCKWISE)
    (hcw : ∀ h ∈ holes, K.orientation (K.promote h) = Orientation.CLOCKWISE)
    (hrt : ∀ r ∈ r0 :: holes, ∀ p ∈ r,
      K.to_float (K.to_double p.1) = p.1 ∧ K.to_float (K.to_double p.2) = p.2) :
    ∃ pwh, decode_polygon K (encode_rings (r0 :: holes)) = Except.ok pwh ∧
      pwh.outer = K.promote r0 ∧ pwh.holes = holes.map K.promote ∧
      K.orientation pwh.outer = Orientation.COUNTERCLOCKWISE ∧
      (∀ h ∈ pwh.holes, K.orientation h = Orientation.CLOCKWISE) ∧
      K.rings_of pwh = r0 :: holes ∧
      encode_rings (K.rings_of pwh) = encode_rings (r0 :: holes) := by
  have h0 := hlen r0 (List.mem_cons_self r0 holes)
  have hholes : ∀ h ∈ holes, 0 < h.length ∧ h.length < 2 ^ 31 := fun h hh =>
    ⟨by have := (hlen h (List.mem_cons_of_mem r0 hh)).1; omega,
      (hlen h (List.mem_cons_of_mem r0 hh)).2⟩
  have hd := decode_polygon_encode_rings K r0 holes [] h0.1 h0.2 hholes
  have hall : holes.all (fun h => K.is_clockwise_oriented (K.promote h)) = true := by
    rw [List.all_eq_true]
    intro h hh
    simp [Kernel.is_clockwise_oriented, hcw h hh]
  have hc : K.is_counterclockwise_oriented (K.promote r0) = true := by
    simp [Kernel.is_counterclockwise_oriented, hccw]
  rw [List.append_nil, hc, hall] at hd
  have hrings : K.rings_of ⟨K.promote r0, holes.map K.promote⟩ = r0 :: holes := by
    simp only [Kernel.rings_of]
    rw [demote_promote K r0 (hrt r0 (List.mem_cons_self r0 holes)),
      map_demote_promote K holes (fun r hr => hrt r (List.mem_cons_of_mem r0 hr))]
  refine ⟨⟨K.promote r0, holes.map K.promote⟩, by simpa using hd, rfl, rfl, hccw, ?_, hrings,
    by rw [hrings]⟩
  intro h hh
  obtain ⟨r, hr, rfl⟩ := List.mem_map.mp hh
  exact hcw r hr

theorem square_round_trip_coords : ∀ r ∈ [square, cw_hole], ∀ p ∈ r,
    exact_kernel.to_float (exact_kernel.to_double p.1) = p.1 ∧
      exact_kernel.to_float (exact_kernel.to_double p.2) = p.2 := by
  decide

theorem square_ring_lengths : ∀ r ∈ [square, cw_hole], 3 ≤ r.length ∧ r.length < 2 ^ 31 := by
  decide

/-- Witness of C4: the square of the spec with one clockwise triangular hole. -/
theorem ring_codec_round_trip_witness :
    encode_rings [square, cw_hole]
      = [4, 0, 0, f_ten, 0, f_ten, f_ten, 0, f_ten,
          3, f_one, f_one, f_one, 0x40000000, 0x40000000, f_one, 0] ∧
    ∃ pwh, decode_polygon exact_kernel (encode_rings [square, cw_hole]) = Except.ok pwh ∧
      pwh.outer = exact_kernel.promote square ∧
      pwh.holes = [cw_hole].map exact_kernel.promote ∧
      exact_kernel.orientation pwh.outer = Orientation.COUNTERCLOCKWISE ∧
      (∀ h ∈ pwh.holes, exact_kernel.orientation h = Orientation.CLOCKWISE) ∧
      exact_kernel.rings_of pwh = [square, cw_hole] ∧
      encode_rings (exact_kernel.rings_of pwh) = encode_rings [square, cw_hole] :=
  ⟨by rfl, ring_codec_round_trip exact_kernel square [cw_hole] square_ring_lengths
    (by decide) (by decide) square_round_trip_coords⟩

/-- C8 fails on the code: a buffer whose first word is 0 does not decode to the
empty polygon, the call stops on `assert(points != 0)`. -/
theorem decode_polygon_zero_first_word_fails :
    decode_polygon exact_kernel [0] = Except.error Fault.assert_points_nonzero ∧
    decode_polygon exact_kernel [0] ≠ Except.ok Polygon_with_holes.empty :=
  ⟨by rfl, by simp [decode_polygon]⟩

/-- C8, amended. For every buffer whose first word is 0, `decode_polygon` stops
on its first assertion `points != 0`, whatever follows that word, and returns
no polygon. -/
theorem decode_polygon_zero_first_word {FT : Type} (K : Kernel FT) (rest : List Word) :
    decode_polygon K (0 :: rest) = Except.error Fault.assert_points_nonzero ∧
    ∀ pwh, decode_polygon K (0 :: rest) ≠ Except.ok pwh := by
  simp [decode_polygon]

/-- C10 fails on the code: with a clockwise first ring of 3 points the outcome
depends on what follows its last coordinate.  With nothing after it the next
count word is read outside the buffer; with a word after it the call stops on
the orientation assertion.  The count word is read (line 156) before the
assertion (line 162). -/
theorem decode_polygon_cw_outer_reads_next_count :
    3 ≤ cw_triangle.length ∧
    exact_kernel.orientation (exact_kernel.promote cw_triangle) = Orientation.CLOCKWISE ∧
    decode_polygon exact_kernel (encode_ring cw_triangle ++ [])
      = Except.error Fault.read_past_end ∧
    decode_polygon exact_kernel (encode_ring cw_triangle ++ [0])
      = Except.error Fault.assert_outer_ccw :=
  ⟨by decide, by decide, by rfl, by rfl⟩

/-- C10, amended. For every buffer whose first ring has at least 3 (and fewer
than `2^31`) points, is clockwise, and is followed by at least one word,
`decode_polygon` stops on the outer orientation assertion; the outcome is the
same whatever that word and the words after it are, so no point of a hole ring
takes part in it. -/
theorem decode_polygon_cw_outer {FT : Type} (K : Kernel FT) (ring : Ring) (w : Word)
    (rest : List Word) (h3 : 3 ≤ ring.length) (hlt : ring.length < 2 ^ 31)
    (hcw : K.orientation (K.promote ring) = Orientation.CLOCKWISE) :
    decode_polygon K (encode_ring ring ++ w :: rest) = Except.error Fault.assert_outer_ccw := by
  obtain ⟨fuel, hf⟩ := decode_polygon_rings K ring [] w rest h3 hlt (by simp)
  have he : encode_ring_list [ring] = encode_ring ring := by simp [encode_ring_list]
  have hc : K.is_counterclockwise_oriented (K.promote ring) = false := by
    simp [Kernel.is_counterclockwise_oriented, hcw]
  rw [he, hc] at hf
  simpa using hf

/-- Witness of C10, amended: the clockwise triangle followed by the count word
of a further ring. -/
theorem decode_polygon_cw_outer_witness :
    (3 ≤ cw_triangle.length ∧ cw_triangle.length < 2 ^ 31 ∧
      exact_kernel.orientation (exact_kernel.promote cw_triangle) = Orientation.CLOCKWISE) ∧
    decode_polygon exact_kernel (encode_ring cw_triangle ++ 3 :: [])
      = Except.error Fault.assert_outer_ccw :=
  ⟨⟨by decide, by decide, by decide⟩,
    decode_polygon_cw_outer exact_kernel cw_triangle 3 [] (by decide) (by decide) (by decide)⟩

theorem area_kernel_ccw_iff {FT : Type} [LinearOrderedRing FT] (to_double : Word → FT)
    (to_float : FT → Word) (p : Polygon_2 FT) :
    (area_kernel to_double to_float).is_counterclockwise_oriented p = true
      ↔ 0 < signed_area2 p := by
  simp only [Kernel.is_counterclockwise_oriented, area_kernel, area_orientation,
    decide_eq_true_eq]
  by_cases h1 : 0 < signed_area2 p
  · simp [h1]
  · by_cases h2 : signed_area2 p < 0 <;> simp [h1, h2]

theorem area_kernel_cw_iff {FT : Type} [LinearOrderedRing FT] (to_double : Word → FT)
    (to_float : FT → Word) (p : Polygon_2 FT) :
    (area_kernel to_double to_float).is_clockwise_oriented p = true
      ↔ signed_area2 p < 0 := by
  simp only [Kernel.is_clockwise_oriented, area_kernel, area_orientation,
    decide_eq_true_eq]
  by_cases h1 : 0 < signed_area2 p
  · have h2 : ¬ signed_area2 p < 0 := not_lt.mpr (le_of_lt h1)
    simp [h1, h2]
  · by_cases h2 : signed_area2 p < 0 <;> simp [h1, h2]

theorem holes_all_cw_iff {FT : Type} [LinearOrderedRing FT] (to_double : Word → FT)
    (to_float : FT → Word) (holes : List Ring) :
    holes.all (fun h => (area_kernel to_double to_float).is_clockwise_oriented
        ((area_kernel to_double to_float).promote h)) = true
      ↔ ∀ h ∈ holes, signed_area2 ((area_kernel to_double to_float).promote h) < 0 := by
  rw [List.all_eq_true]
  exact forall_congr' (fun h => imp_congr_right (fun _ => area_kernel_cw_iff _ _ _))

/-- C9. With the orientation derived from the signed area: for every
zero-terminated buffer whose rings all have at least 3 (and fewer than `2^31`)
points, `decode_polygon` succeeds if and only if the first ring has positive
signed area (counter-clockwise) and every further ring has negative signed area
(clockwise).  A first ring that is not counter-clockwise stops it on the outer
assertion, a further ring that is not clockwise (zero area included) on the
hole assertion. -/
theorem decode_polygon_ok_iff_orientation {FT : Type} [LinearOrderedRing FT]
    (to_double : Word → FT) (to_float : FT → Word) (r0 : Ring) (holes : List Ring)
    (tail : List Word) (hlen : ∀ r ∈ r0 :: holes, 3 ≤ r.length ∧ r.length < 2 ^ 31) :
    ((∃ pwh, decode_polygon (area_kernel to_double to_float)
          (encode_rings (r0 :: holes) ++ tail) = Except.ok pwh) ↔
      (0 < signed_area2 ((area_kernel to_double to_float).promote r0) ∧
        ∀ h ∈ holes, signed_area2 ((area_kernel to_double to_float).promote h) < 0)) ∧
    (¬ 0 < signed_area2 ((area_kernel to_double to_float).promote r0) →
      decode_polygon (area_kernel to_double to_float) (encode_rings (r0 :: holes) ++ tail)
        = Except.error Fault.assert_outer_ccw) ∧
    (0 < signed_area2 ((area_kernel to_double to_float).promote r0) →
      (∃ h ∈ holes, ¬ signed_area2 ((area_kernel to_double to_float).promote h) < 0) →
      decode_polygon (area_kernel to_double to_float) (encode_rings (r0 :: holes) ++ tail)
        = Except.error Fault.assert_hole_cw) := by
  have h0 := hlen r0 (List.mem_cons_self r0 holes)
  have hholes : ∀ h ∈ holes, 0 < h.length ∧ h.length < 2 ^ 31 := fun h hh =>
    ⟨by have := (hlen h (List.mem_cons_of_mem r0 hh)).1; omega,
      (hlen h (List.mem_cons_of_mem r0 hh)).2⟩
  have hd := decode_polygon_encode_rings (area_kernel to_double to_float) r0 holes tail
    h0.1 h0.2 hholes
  by_cases hccw : 0 < signed_area2 ((area_kernel to_double to_float).promote r0)
  · have hc := (area_kernel_ccw_iff to_double to_float _).mpr hccw
    by_cases hcw : ∀ h ∈ holes, signed_area2 ((area_kernel to_double to_float).promote h) < 0
    · have hall := (holes_all_cw_iff to_double to_float holes).mpr hcw
      rw [hc, hall] at hd
      refine ⟨⟨fun _ => ⟨hccw, hcw⟩, fun _ => ⟨_, by simpa using hd⟩⟩, fun h => absurd hccw h, ?_⟩
      rintro - ⟨h, hh, hn⟩
      exact absurd (hcw h hh) hn
    · have hall : holes.all (fun h => (area_kernel to_double to_float).is_clockwise_oriented
          ((area_kernel to_double to_float).promote h)) = false := by
        rw [Bool.eq_false_iff]
        exact fun h => hcw ((holes_all_cw_iff to_double to_float holes).mp h)
      rw [hc, hall] at hd
      have hd1 : decode_polygon (area_kernel to_double to_float)
          (encode_rings (r0 :: holes) ++ tail) = Except.error Fault.assert_hole_cw := by
        simpa using hd
      refine ⟨⟨?_, fun h => absurd h.2 hcw⟩, fun h => absurd hccw h, fun _ _ => hd1⟩
      rintro ⟨pwh, hp⟩
      rw [hd1] at hp
      exact Except.noConfusion hp
  · have hc : (area_kernel to_double to_float).is_counterclockwise_oriented
        ((area_kernel to_double to_float).promote r0) = false := by
      rw [Bool.eq_false_iff]
      exact fun h => hccw ((area_kernel_ccw_iff to_double to_float _).mp h)
    rw [hc] at hd
    have hd1 : decode_polygon (area_kernel to_double to_float)
        (encode_rings (r0 :: holes) ++ tail) = Except.error Fault.assert_outer_ccw := by
      simpa using hd
    refine ⟨⟨?_, fun h => absurd h.1 hccw⟩, fun _ => hd1, fun h => absurd h hccw⟩
    rintro ⟨pwh, hp⟩
    rw [hd1] at hp
    exact Except.noConfusion hp

/-- Witness of C9: the square with a clockwise hole decodes; entered as the
hole, the square itself (counter-clockwise) stops the call. -/
theorem decode_polygon_ok_iff_orientation_witness :
    (∀ r ∈ [square, cw_hole], 3 ≤ r.length ∧ r.length < 2 ^ 31) ∧
    (∃ pwh, decode_polygon exact_kernel (encode_rings [square, cw_hole] ++ []) = Except.ok pwh) ∧
    decode_polygon exact_kernel (encode_rings [square, square] ++ [])
      = Except.error Fault.assert_hole_cw :=
  ⟨square_ring_lengths,
    (decode_polygon_ok_iff_orientation float_value float_bits square [cw_hole] []
      square_ring_lengths).1.2 ⟨by decide, by decide⟩,
    (decode_polygon_ok_iff_orientation float_value float_bits square [square] []
      (by decide)).2.2 (by decide) ⟨square, by decide, by decide⟩⟩

theorem signed_area2_short {FT : Type} [LinearOrderedRing FT] (p : Polygon_2 FT)
    (h : p.length ≤ 2) : signed_area2 p = 0 := by
  match p, h with
  | [], _ => simp [signed_area2]
  | [a], _ => simp [signed_area2]
  | [a, b], _ =>
    simp only [signed_area2, List.rotate_cons_succ, List.rotate_zero, List.cons_append,
      List.nil_append, List.zip_cons_cons, List.zip_nil_right, List.map_cons, List.map_nil,
      List.sum_cons, List.sum_nil, add_zero]
    abel

/-- C7. With the orientation derived from the signed area: `decode_polygon`
stops on an assertion for every buffer that holds the records of some rings
(nonzero point counts below `2^31`), then the record of a ring that declares 1
or 2 points, then at least one more word.  The ring with 1 or 2 points may be
the first ring (no ring before it) or a hole. -/
theorem decode_polygon_short_ring_fails {FT : Type} [LinearOrderedRing FT]
    (to_double : Word → FT) (to_float : FT → Word) (before : List Ring) (bad : Ring)
    (w : Word) (rest : List Word)
    (hbefore : ∀ r ∈ before, 0 < r.length ∧ r.length < 2 ^ 31)
    (hbad : bad.length = 1 ∨ bad.length = 2) :
    ∃ f, decode_polygon (area_kernel to_double to_float)
        (encode_ring_list (before ++ [bad]) ++ w :: rest) = Except.error f ∧
      f.is_assertion = true := by
  have hbadcw : (area_kernel to_double to_float).is_clockwise_oriented
      ((area_kernel to_double to_float).promote bad) = false := by
    rw [Bool.eq_false_iff]
    intro h
    have ha := (area_kernel_cw_iff to_double to_float _).mp h
    rw [signed_area2_short _ (by simp only [Kernel.promote, List.length_map]; omega)] at ha
    exact lt_irrefl _ ha
  cases before with
  | nil =>
    refine ⟨Fault.assert_points_gt_2, ?_, rfl⟩
    have hne : bad.length ≠ 0 := by omega
    have hle : bad.length ≤ 2 := by omega
    simp [encode_ring_list_cons, decode_polygon, hne, hle]
  | cons r0 hs =>
    by_cases h3 : 3 ≤ r0.length
    · have hlen : ∀ h ∈ hs ++ [bad], 0 < h.length ∧ h.length < 2 ^ 31 := by
        intro h hh
        rcases List.mem_append.mp hh with hh | hh
        · exact hbefore h (List.mem_cons_of_mem r0 hh)
        · rw [List.mem_singleton.mp hh]; omega
      obtain ⟨fuel, hf⟩ := decode_polygon_rings (area_kernel to_double to_float) r0
        (hs ++ [bad]) w rest h3 (hbefore r0 (List.mem_cons_self r0 hs)).2 hlen
      have hall : (hs ++ [bad]).all (fun h =>
          (area_kernel to_double to_float).is_clockwise_oriented
            ((area_kernel to_double to_float).promote h)) = false := by
        simp [List.all_append, hbadcw]
      rw [List.cons_append, hf, hall]
      by_cases hc : (area_kernel to_double to_float).is_counterclockwise_oriented
          ((area_kernel to_double to_float).promote r0) = true
      · exact ⟨Fault.assert_hole_cw, by simp [hc], rfl⟩
      · exact ⟨Fault.assert_outer_ccw, by simp [hc], rfl⟩
    · refine ⟨Fault.assert_points_gt_2, ?_, rfl⟩
      have hne : r0.length ≠ 0 := by
        have := (hbefore r0 (List.mem_cons_self r0 hs)).1; omega
      have hle : r0.length ≤ 2 := by omega
      simp [encode_ring_list_cons, decode_polygon, hne, hle]

/-- Witness of C7: a two-point ring in the hole position after the square, and
a one-point ring in the first position. -/
theorem decode_polygon_short_ring_fails_witness :
    (∃ f, decode_polygon exact_kernel
        (encode_ring_list ([square] ++ [[(f_one, f_one), (f_one, 0x40000000)]]) ++ 0 :: [])
          = Except.error f ∧ f.is_assertion = true) ∧
    decode_polygon exact_kernel
        (encode_ring_list ([square] ++ [[(f_one, f_one), (f_one, 0x40000000)]]) ++ 0 :: [])
      = Except.error Fault.assert_hole_cw ∧
    (∃ f, decode_polygon exact_kernel
        (encode_ring_list ([] ++ [[(f_one, f_one)]]) ++ 0 :: [])
          = Except.error f ∧ f.is_assertion = true) :=
  ⟨decode_polygon_short_ring_fails float_value float_bits [square]
      [(f_one, f_one), (f_one, 0x40000000)] 0 [] (by decide) (by decide),
    by rfl,
    decode_polygon_short_ring_fails float_value float_bits []
      [(f_one, f_one)] 0 [] (by simp) (by decide)⟩

/-! ## The row unpacking loop -/

/-- The inner loop copies the next `n` values when they lie in the array and
their indices do not wrap. -/
theorem read_row_ok {FT : Type} (K : Kernel FT) (values : List Word) (offset : Nat) (n : Nat) :
    ∀ (row : List FT) (j : Nat), offset + j + n ≤ values.length →
      offset + j + n ≤ UINT32_MOD →
      read_row K values offset row j n
        = Except.ok (row ++ ((values.drop (offset + j)).take n).map K.to_double) := by
  induction n with
  | zero => intro row j _ _; simp [read_row]
  | succ n ih =>
    intro row j hlen h32
    have hlt : offset + j < values.length := by omega
    have hmod : (offset + j) % UINT32_MOD = offset + j := Nat.mod_eq_of_lt (by omega)
    have hget : values[(offset + j) % UINT32_MOD]? = some values[offset + j] := by
      rw [hmod]; exact List.getElem?_eq_getElem hlt
    simp only [read_row, hget]
    rw [ih _ (j + 1) (by omega) (by omega)]
    rw [List.drop_eq_getElem_cons hlt]
    simp [Nat.add_assoc]

theorem row_offset_eq_sum_take (rowSizes : List Nat) (i : Nat) :
    row_offset rowSizes i = (rowSizes.take i).sum := by
  induction i with
  | zero => simp [row_offset]
  | succ i ih =>
    simp only [row_offset, ih]
    by_cases hi : i < rowSizes.length
    · rw [List.sum_take_succ rowSizes i hi, List.getD_eq_getElem rowSizes 0 hi]
    · have hle : rowSizes.length ≤ i := by omega
      rw [List.take_of_length_le hle, List.take_of_length_le (by omega),
        List.getD_eq_default rowSizes 0 hle]
      rfl

theorem row_offset_succ_le_sum (rowSizes : List Nat) (i : Nat) :
    row_offset rowSizes (i + 1) ≤ rowSizes.sum := by
  rw [row_offset_eq_sum_take]
  have h := List.sum_take_add_sum_drop rowSizes (i + 1)
  omega

/-- The outer loop from row `i` on produces the rows of the specification. -/
theorem unpack_loop_ok {FT : Type} (K : Kernel FT) (values : List Word) (rowSizes : List Nat)
    (hsum : rowSizes.sum ≤ values.length) (h32 : rowSizes.sum < UINT32_MOD) (n : Nat) :
    ∀ (rows : List (List FT)) (i : Nat), i + n = rowSizes.length →
      unpack_loop K values rowSizes (row_offset rowSizes i) rows i n
        = Except.ok (rows ++ (List.range' i n).map (spec_row K values rowSizes)) := by
  induction n with
  | zero => intro rows i _; simp [unpack_loop]
  | succ n ih =>
    intro rows i hi
    have hlt : i < rowSizes.length := by omega
    have hget : rowSizes[i]? = some rowSizes[i] := List.getElem?_eq_getElem hlt
    have hle := row_offset_succ_le_sum rowSizes i
    have hd : rowSizes.getD i 0 = rowSizes[i] := List.getD_eq_getElem rowSizes 0 hlt
    simp only [row_offset, hd] at hle
    have hrow := read_row_ok K values (row_offset rowSizes i) rowSizes[i] [] 0
      (by omega) (by omega)
    have hoff : (row_offset rowSizes i + rowSizes[i]) % UINT32_MOD
        = row_offset rowSizes (i + 1) := by
      rw [Nat.mod_eq_of_lt (by omega)]
      simp only [row_offset, hd]
    simp only [unpack_loop, hget, hrow, hoff]
    rw [ih _ (i + 1) (by omega), List.range'_succ, List.map_cons, List.append_assoc]
    simp only [spec_row, hd, List.nil_append, Nat.add_zero, List.singleton_append]

/-- C5. For every values array and every row-size list whose sizes sum to at
most the length of the values array and to less than `2^32`, the unpacking
loop, run for `rowCount = rowSizes.length` rows, produces exactly `rowCount`
rows in order, row `i` being `values[offset_i .. offset_i + rowSizes[i])` with
`offset_0 = 0` and `offset_i = offset_{i-1} + rowSizes[i-1]`; in particular
`rowSizes = [2,3,1]` over `v0..v5` gives `[v0,v1]`, `[v2,v3,v4]`, `[v5]`. -/
theorem unpack_rows_spec {FT : Type} (K : Kernel FT) :
    (∀ (values : List Word) (rowSizes : List Nat), rowSizes.sum ≤ values.length →
      rowSizes.sum < UINT32_MOD →
      ∃ rows, unpack_rows K values rowSizes rowSizes.length = Except.ok rows ∧
        rows.length = rowSizes.length ∧
        rows = (List.range rowSizes.length).map (spec_row K values rowSizes) ∧
        ∀ i, i < rowSizes.length →
          rows[i]? = some (((values.drop (row_offset rowSizes i)).take
            (rowSizes.getD i 0)).map K.to_double)) ∧
    (∀ v0 v1 v2 v3 v4 v5 : Word,
      unpack_rows K [v0, v1, v2, v3, v4, v5] [2, 3, 1] 3
        = Except.ok [[K.to_double v0, K.to_double v1],
            [K.to_double v2, K.to_double v3, K.to_double v4], [K.to_double v5]]) := by
  constructor
  · intro values rowSizes hsum h32
    have h := unpack_loop_ok K values rowSizes hsum h32 rowSizes.length [] 0 (by omega)
    refine ⟨_, h, by simp, by simp [List.range_eq_range'], ?_⟩
    intro i hi
    simp [List.getElem?_range' , hi, spec_row]
  · intro v0 v1 v2 v3 v4 v5
    rfl

/-- Witness of C5: three rows of sizes 2, 3, 1 over six values and a seventh
value that no row takes. -/
theorem unpack_rows_spec_witness :
    ([2, 3, 1].sum ≤ [f_one, f_ten, 0, f_one, f_ten, 0, f_one].length ∧
      [2, 3, 1].sum < UINT32_MOD) ∧
    ∃ rows, unpack_rows exact_kernel [f_one, f_ten, 0, f_one, f_ten, 0, f_one] [2, 3, 1]
          [2, 3, 1].length = Except.ok rows ∧
        rows.length = [2, 3, 1].length ∧
        rows = (List.range [2, 3, 1].length).map
          (spec_row exact_kernel [f_one, f_ten, 0, f_one, f_ten, 0, f_one] [2, 3, 1]) ∧
        ∀ i, i < [2, 3, 1].length →
          rows[i]? = some ((([f_one, f_ten, 0, f_one, f_ten, 0, f_one].drop
            (row_offset [2, 3, 1] i)).take ([2, 3, 1].getD i 0)).map exact_kernel.to_double) :=
  ⟨⟨by decide, by decide⟩,
    (unpack_rows_spec exact_kernel).1 [f_one, f_ten, 0, f_one, f_ten, 0, f_one] [2, 3, 1]
      (by decide) (by decide)⟩

/-! ## `generate_extruded_mesh` -/

/-- C6 fails on the code: `generate_extruded_mesh` compares nothing.  For the
4-point square with a row of length 3, and for the polygon without rings with
one row, the configuration is mismatched and the engine is still invoked, once,
and its mesh is returned; the entry point, given the square and three weights
in one row, likewise reaches the engine and returns the serialized mesh. -/
theorem generate_extruded_mesh_mismatch_reaches_engine :
    config_mismatch square_pwh short_row ∧
    (generate_extruded_mesh pyramid_engine square_pwh short_row false
        (float_value f_ten) []).2
      = [⟨square_pwh, Params.weights short_row (float_value f_ten)⟩] ∧
    (generate_extruded_mesh pyramid_engine square_pwh short_row false
        (float_value f_ten) []).1.vertices = pyramid.vertices ∧
    config_mismatch (Polygon_with_holes.empty : Polygon_with_holes Int) short_row ∧
    (generate_extruded_mesh pyramid_engine Polygon_with_holes.empty short_row false
        (float_value f_ten) []).2
      = [⟨Polygon_with_holes.empty, Params.weights short_row (float_value f_ten)⟩] ∧
    create_weighted_straight_skeleton exact_kernel pyramid_engine (encode_rings [square])
        [f_one, f_one, f_one] [3] 1 f_ten
      = ([⟨square_pwh, Params.weights short_row (float_value f_ten)⟩],
          Except.ok (serialize_mesh exact_kernel pyramid)) :=
  ⟨by unfold config_mismatch; decide, by rfl, by rfl, by unfold config_mismatch; decide, by rfl,
    by rfl⟩

/-- C6, amended. The orchestration step performs no comparison of the rows
with the rings: for every polygon, rows, mode and height it invokes the engine
exactly once, with that polygon, those rows under the selected mode and that
height, and returns the mesh the engine leaves. -/
theorem generate_extruded_mesh_invokes_engine {FT : Type} (engine : Engine FT)
    (pwh : Polygon_with_holes FT) (values : List (List FT)) (use_angles : Bool) (height : FT)
    (trace : List (EngineCall FT)) :
    generate_extruded_mesh engine pwh values use_angles height trace
      = ((engine pwh (if use_angles then Params.angles values height
            else Params.weights values height)).2,
          trace ++ [⟨pwh, if use_angles then Params.angles values height
            else Params.weights values height⟩]) := by
  cases use_angles <;> rfl

/-! ## Buffers that end early -/

/-- The point loop has one way to stop without its points: a read outside the
buffer. -/
theorem read_points_error {FT : Type} (K : Kernel FT) (data : List Word) (n : Nat) :
    ∀ (target : Polygon_2 FT) (i : Nat) (e : Fault),
      read_points K data target i n = Except.error e → e = Fault.read_past_end := by
  induction n with
  | zero => intro target i e h; simp [read_points] at h
  | succ n ih =>
    intro target i e h
    simp only [read_points] at h
    split at h
    · exact ih _ _ _ h
    · exact (Except.error.inj h).symm

/-- A ring whose coordinates, or the count word after them, lie past the end of
the buffer makes the ring loop read outside the buffer. -/
theorem decode_loop_truncated {FT : Type} (K : Kernel FT) (fuel : Nat) (c : Nat)
    (coords : List Word) (outer_set : Bool) (outer hole : Polygon_2 FT)
    (poly : Polygon_with_holes FT) (hc0 : 0 < c) (hc : c < 2 ^ 31)
    (hlen : coords.length ≤ 2 * c) :
    decode_loop K fuel c coords outer_set outer hole poly
      = Except.error Fault.read_past_end := by
  have hne : c ≠ 0 := by omega
  cases fuel with
  | zero => simp [decode_loop, hne]
  | succ fuel =>
    have hmod : c * 2 % UINT32_MOD = c * 2 :=
      Nat.mod_eq_of_lt (by simp only [UINT32_MOD]; omega)
    have hdrop : coords.drop (c * 2) = [] := List.drop_eq_nil_of_le (by omega)
    simp only [decode_loop, hne, if_false, hmod, hdrop]
    cases hr : read_points K coords (if outer_set then hole else outer) 0 c with
    | error e => rw [read_points_error K coords c _ 0 e hr]
    | ok target => rfl

/-- C11 fails on the code: the square's record without a terminating zero, and
a record that declares 4 points and holds 2, do not end in a malformed-input
failure; the execution reaches a read of a word outside the buffer, which is
not one of the assertions.  What follows that read depends on the memory after
the buffer: were the next word in memory a zero, the square would be returned. -/
theorem decode_polygon_truncated_reads_past_end :
    decode_polygon exact_kernel (encode_ring square) = Except.error Fault.read_past_end ∧
    decode_polygon exact_kernel [4, 0, 0, f_ten, 0] = Except.error Fault.read_past_end ∧
    Fault.read_past_end.is_assertion = false ∧
    decode_polygon exact_kernel (encode_ring square ++ [0]) = Except.ok square_pwh :=
  ⟨by rfl, by rfl, by rfl, by rfl⟩

/-- C11, amended. For every buffer that ends before a terminating zero point
count has been read and whose complete rings pass the decoder's assertions
(first ring of at least 3 points and counter-clockwise, further rings
clockwise), `decode_polygon` does not stop on a malformed-input failure: it
makes no bounds check and its execution reaches a read of a word past the end
of the buffer.  The buffer is a list of complete ring records followed by a
ring whose coordinates or whose following count word lie past the end; or the
first ring itself is cut short; or the buffer is empty. -/
theorem decode_polygon_truncated {FT : Type} (K : Kernel FT) :
    (∀ (r0 : Ring) (holes : List Ring) (c : Nat) (coords : List Word),
      3 ≤ r0.length → (∀ r ∈ r0 :: holes, 0 < r.length ∧ r.length < 2 ^ 31) →
      K.orientation (K.promote r0) = Orientation.COUNTERCLOCKWISE →
      (∀ h ∈ holes, K.orientation (K.promote h) = Orientation.CLOCKWISE) →
      0 < c → c < 2 ^ 31 → coords.length ≤ 2 * c →
      decode_polygon K (encode_ring_list (r0 :: holes) ++ c :: coords)
        = Except.error Fault.read_past_end) ∧
    (∀ (c : Nat) (coords : List Word), 3 ≤ c → c < 2 ^ 31 → coords.length ≤ 2 * c →
      decode_polygon K (c :: coords) = Except.error Fault.read_past_end) ∧
    decode_polygon K [] = Except.error Fault.read_past_end := by
  refine ⟨?_, ?_, rfl⟩
  · intro r0 holes c coords h3 hr hccw hcw hc0 hc hlen
    have h0 := hr r0 (List.mem_cons_self r0 holes)
    have hholes : ∀ h ∈ holes, 0 < h.length ∧ h.length < 2 ^ 31 :=
      fun h hh => hr h (List.mem_cons_of_mem r0 hh)
    obtain ⟨fuel, hf⟩ := decode_polygon_rings K r0 holes c coords h3 h0.2 hholes
    have hall : holes.all (fun h => K.is_clockwise_oriented (K.promote h)) = true :=
      List.all_eq_true.mpr (fun h hh => by simp [Kernel.is_clockwise_oriented, hcw h hh])
    rw [hf, decode_loop_truncated K fuel c coords true _ [] _ hc0 hc hlen]
    simp [Kernel.is_counterclockwise_oriented, hccw, hall]
  · intro c coords h3 hc hlen
    have hne : c ≠ 0 := by omega
    have hgt : c > 2 := by omega
    simp only [decode_polygon, hne, hgt, if_false, not_true_eq_false]
    exact decode_loop_truncated K _ c coords false [] [] _ (by omega) hc hlen

/-- Witness of C11, amended: the square and its hole without the terminating
zero; the hole's record is the ring whose following count word is missing. -/
theorem decode_polygon_truncated_witness :
    (3 ≤ square.length ∧ (∀ r ∈ [square], 0 < r.length ∧ r.length < 2 ^ 31) ∧
      exact_kernel.orientation (exact_kernel.promote square)
        = Orientation.COUNTERCLOCKWISE ∧
      0 < cw_hole.length ∧ cw_hole.length < 2 ^ 31 ∧
      (ring_words cw_hole).length ≤ 2 * cw_hole.length) ∧
    decode_polygon exact_kernel
        (encode_ring_list [square] ++ cw_hole.length :: ring_words cw_hole)
      = Except.error Fault.read_past_end :=
  ⟨⟨by decide, by decide, by decide, by decide, by decide, by decide⟩,
    (decode_polygon_truncated exact_kernel).1 square [] cw_hole.length (ring_words cw_hole)
      (by decide) (by decide) (by decide) (by simp) (by decide) (by decide) (by decide)⟩

/-! ## The entry points -/

/-- The weighted entry point once the rows are unpacked and the polygon decoded. -/
theorem create_weighted_ok {FT : Type} (K : Kernel FT) (engine : Engine FT)
    (data weightsPtr rowSizesPtr : List Word) (rowCount : Nat) (height : Word)
    (rows : List (List FT)) (pwh : Polygon_with_holes FT)
    (hu : unpack_rows K weightsPtr rowSizesPtr rowCount = Except.ok rows)
    (hd : decode_polygon K data = Except.ok pwh) :
    create_weighted_straight_skeleton K engine data weightsPtr rowSizesPtr rowCount height
      = ([⟨pwh, Params.weights rows (K.to_double height)⟩],
          Except.ok (serialize_mesh K
            (engine pwh (Params.weights rows (K.to_double height))).2)) := by
  simp [create_weighted_straight_skeleton, hu, hd, generate_extruded_mesh]

/-- The angle entry point once the rows are unpacked and the polygon decoded. -/
theorem create_angle_ok {FT : Type} (K : Kernel FT) (engine : Engine FT)
    (data anglesPtr rowSizesPtr : List Word) (rowCount : Nat) (height : Word)
    (rows : List (List FT)) (pwh : Polygon_with_holes FT)
    (hu : unpack_rows K anglesPtr rowSizesPtr rowCount = Except.ok rows)
    (hd : decode_polygon K data = Except.ok pwh) :
    create_angle_straight_skeleton K engine data anglesPtr rowSizesPtr rowCount height
      = ([⟨pwh, Params.angles rows (K.to_double height)⟩],
          Except.ok (serialize_mesh K
            (engine pwh (Params.angles rows (K.to_double height))).2)) := by
  simp [create_angle_straight_skeleton, hu, hd, generate_extruded_mesh]

/-- Both entry points when the row unpacking stops early. -/
theorem create_unpack_error {FT : Type} (K : Kernel FT) (engine : Engine FT)
    (data valuesPtr rowSizesPtr : List Word) (rowCount : Nat) (height : Word) (f : Fault)
    (hu : unpack_rows K valuesPtr rowSizesPtr rowCount = Except.error f) :
    create_weighted_straight_skeleton K engine data valuesPtr rowSizesPtr rowCount height
        = ([], Except.error f) ∧
      create_angle_straight_skeleton K engine data valuesPtr rowSizesPtr rowCount height
        = ([], Except.error f) := by
  simp [create_weighted_straight_skeleton, create_angle_straight_skeleton, hu]

/-- Both entry points when the rows are unpacked and the decoder stops. -/
theorem create_decode_error {FT : Type} (K : Kernel FT) (engine : Engine FT)
    (data valuesPtr rowSizesPtr : List Word) (rowCount : Nat) (height : Word)
    (rows : List (List FT)) (f : Fault)
    (hu : unpack_rows K valuesPtr rowSizesPtr rowCount = Except.ok rows)
    (hd : decode_polygon K data = Except.error f) :
    create_weighted_straight_skeleton K engine data valuesPtr rowSizesPtr rowCount height
        = ([], Except.error f) ∧
      create_angle_straight_skeleton K engine data valuesPtr rowSizesPtr rowCount height
        = ([], Except.error f) := by
  simp [create_weighted_straight_skeleton, create_angle_straight_skeleton, hu, hd]

theorem square_buffer_decodes :
    decode_polygon exact_kernel square_buffer = Except.ok square_pwh := by
  rfl

theorem unit_weights_unpack :
    unpack_rows exact_kernel unit_weights [4] 1 = Except.ok unit_row := by
  rfl

/-- C12. For every input whose rows unpack and whose polygon buffer decodes
(in particular when the rows match the rings), each entry point invokes the
engine exactly once, with the decoded polygon, the unpacked rows under its own
mode (weights for the weighted entry point, angles for the angle one) and the
given height, and returns exactly `serialize_mesh` of the mesh the engine
yields.  For an engine that yields a mesh or a failure, a failure of that call
ends the entry point with no output buffer. -/
theorem entry_points_invoke_engine_once {FT : Type} (K : Kernel FT) (engine : Engine FT)
    (data valuesPtr rowSizesPtr : List Word) (rowCount : Nat) (height : Word)
    (rows : List (List FT)) (pwh : Polygon_with_holes FT)
    (hu : unpack_rows K valuesPtr rowSizesPtr rowCount = Except.ok rows)
    (hd : decode_polygon K data = Except.ok pwh) :
    create_weighted_straight_skeleton K engine data valuesPtr rowSizesPtr rowCount height
        = ([⟨pwh, Params.weights rows (K.to_double height)⟩],
            Except.ok (serialize_mesh K
              (engine pwh (Params.weights rows (K.to_double height))).2)) ∧
    create_angle_straight_skeleton K engine data valuesPtr rowSizesPtr rowCount height
        = ([⟨pwh, Params.angles rows (K.to_double height)⟩],
            Except.ok (serialize_mesh K
              (engine pwh (Params.angles rows (K.to_double height))).2)) ∧
    (engine_conforms engine →
      ((engine pwh (Params.weights rows (K.to_double height))).1 = false →
        create_weighted_straight_skeleton K engine data valuesPtr rowSizesPtr rowCount height
          = ([⟨pwh, Params.weights rows (K.to_double height)⟩], Except.ok none)) ∧
      ((engine pwh (Params.angles rows (K.to_double height))).1 = false →
        create_angle_straight_skeleton K engine data valuesPtr rowSizesPtr rowCount height
          = ([⟨pwh, Params.angles rows (K.to_double height)⟩], Except.ok none))) := by
  have hw := create_weighted_ok K engine data valuesPtr rowSizesPtr rowCount height
    rows pwh hu hd
  have ha := create_angle_ok K engine data valuesPtr rowSizesPtr rowCount height
    rows pwh hu hd
  refine ⟨hw, ha, fun hconf => ⟨fun hfail => ?_, fun hfail => ?_⟩⟩
  · have h0 := hconf pwh (Params.weights rows (K.to_double height)) hfail
    rw [hw]
    simp [serialize_mesh, h0]
  · have h0 := hconf pwh (Params.angles rows (K.to_double height)) hfail
    rw [ha]
    simp [serialize_mesh, h0]

theorem empty_failing_engine_conforms : engine_conforms empty_failing_engine :=
  fun _ _ _ => rfl

/-- Witness of C12: the square, the row `[1,1,1,1]` and height 10.  With the
fake engine that returns the pyramid the weighted entry point returns the
pyramid's buffer after one engine call; with the engine that fails it returns
no buffer. -/
theorem entry_points_invoke_engine_once_witness :
    (unpack_rows exact_kernel unit_weights [4] 1 = Except.ok unit_row ∧
      decode_polygon exact_kernel square_buffer = Except.ok square_pwh ∧
      ¬ config_mismatch square_pwh unit_row ∧
      engine_conforms empty_failing_engine ∧
      (empty_failing_engine square_pwh
        (Params.weights unit_row (exact_kernel.to_double f_ten))).1 = false) ∧
    create_weighted_straight_skeleton exact_kernel pyramid_engine square_buffer
        unit_weights [4] 1 f_ten
      = ([⟨square_pwh, Params.weights unit_row (exact_kernel.to_double f_ten)⟩],
          Except.ok (serialize_mesh exact_kernel
            (pyramid_engine square_pwh
              (Params.weights unit_row (exact_kernel.to_double f_ten))).2)) ∧
    create_weighted_straight_skeleton exact_kernel empty_failing_engine square_buffer
        unit_weights [4] 1 f_ten
      = ([⟨square_pwh, Params.weights unit_row (exact_kernel.to_double f_ten)⟩],
          Except.ok none) :=
  ⟨⟨unit_weights_unpack, square_buffer_decodes, by unfold config_mismatch; decide,
      empty_failing_engine_conforms, rfl⟩,
    (entry_points_invoke_engine_once exact_kernel pyramid_engine square_buffer unit_weights
      [4] 1 f_ten unit_row square_pwh unit_weights_unpack square_buffer_decodes).1,
    ((entry_points_invoke_engine_once exact_kernel empty_failing_engine square_buffer
      unit_weights [4] 1 f_ten unit_row square_pwh unit_weights_unpack
      square_buffer_decodes).2.2 empty_failing_engine_conforms).1 rfl⟩

/-- C13. Fail-fast: when decoding the polygon buffer fails, each entry point
ends in a failure with no engine invocation and no output buffer, for every
engine; the outcome is therefore the same for any two engines.  When the rows
were unpacked, the failure is the decoder's. -/
theorem entry_points_fail_fast {FT : Type} (K : Kernel FT)
    (data valuesPtr rowSizesPtr : List Word) (rowCount : Nat) (height : Word) (e : Fault)
    (hd : decode_polygon K data = Except.error e) :
    (∀ engine : Engine FT, ∃ f,
      create_weighted_straight_skeleton K engine data valuesPtr rowSizesPtr rowCount height
          = ([], Except.error f) ∧
        create_angle_straight_skeleton K engine data valuesPtr rowSizesPtr rowCount height
          = ([], Except.error f) ∧
        (∀ rows, unpack_rows K valuesPtr rowSizesPtr rowCount = Except.ok rows → f = e)) ∧
    (∀ engine1 engine2 : Engine FT,
      create_weighted_straight_skeleton K engine1 data valuesPtr rowSizesPtr rowCount height
          = create_weighted_straight_skeleton K engine2 data valuesPtr rowSizesPtr rowCount
              height ∧
        create_angle_straight_skeleton K engine1 data valuesPtr rowSizesPtr rowCount height
          = create_angle_straight_skeleton K engine2 data valuesPtr rowSizesPtr rowCount
              height) := by
  cases hu : unpack_rows K valuesPtr rowSizesPtr rowCount with
  | error f =>
    refine ⟨fun engine => ⟨f, ?_⟩, fun engine1 engine2 => ?_⟩
    · have h := create_unpack_error K engine data valuesPtr rowSizesPtr rowCount height f hu
      exact ⟨h.1, h.2, fun rows hr => by simp at hr⟩
    · have h1 := create_unpack_error K engine1 data valuesPtr rowSizesPtr rowCount height f hu
      have h2 := create_unpack_error K engine2 data valuesPtr rowSizesPtr rowCount height f hu
      exact ⟨h1.1.trans h2.1.symm, h1.2.trans h2.2.symm⟩
  | ok rows =>
    refine ⟨fun engine => ⟨e, ?_⟩, fun engine1 engine2 => ?_⟩
    · have h := create_decode_error K engine data valuesPtr rowSizesPtr rowCount height
        rows e hu hd
      exact ⟨h.1, h.2, fun _ _ => rfl⟩
    · have h1 := create_decode_error K engine1 data valuesPtr rowSizesPtr rowCount height
        rows e hu hd
      have h2 := create_decode_error K engine2 data valuesPtr rowSizesPtr rowCount height
        rows e hu hd
      exact ⟨h1.1.trans h2.1.symm, h1.2.trans h2.2.symm⟩

/-- Witness of C13: a clockwise outer ring; both entry points stop on the
decoder's orientation assertion without a call of the engine. -/
theorem entry_points_fail_fast_witness :
    decode_polygon exact_kernel (encode_rings [cw_triangle])
      = Except.error Fault.assert_outer_ccw ∧
    create_weighted_straight_skeleton exact_kernel pyramid_engine (encode_rings [cw_triangle])
        [f_one, f_one, f_one] [3] 1 f_ten
      = ([], Except.error Fault.assert_outer_ccw) ∧
    (∀ engine1 engine2 : Engine Int,
      create_weighted_straight_skeleton exact_kernel engine1 (encode_rings [cw_triangle])
          [f_one, f_one, f_one] [3] 1 f_ten
        = create_weighted_straight_skeleton exact_kernel engine2 (encode_rings [cw_triangle])
          [f_one, f_one, f_one] [3] 1 f_ten ∧
      create_angle_straight_skeleton exact_kernel engine1 (encode_rings [cw_triangle])
          [f_one, f_one, f_one] [3] 1 f_ten
        = create_angle_straight_skeleton exact_kernel engine2 (encode_rings [cw_triangle])
          [f_one, f_one, f_one] [3] 1 f_ten) :=
  ⟨by rfl, by rfl,
    (entry_points_fail_fast exact_kernel (encode_rings [cw_triangle]) [f_one, f_one, f_one]
      [3] 1 f_ten Fault.assert_outer_ccw (by rfl)).2⟩

/-- C17. The two entry points are the same pipeline up to the mode flag: on
every input they unpack the same rows and decode the same polygon, so they stop
with the same failure and no engine call when one of these steps fails;
otherwise each calls the engine once with the same polygon, rows and height,
the weighted one in mode `weights` (`use_angles = false`) and the angle one in
mode `angles` (`use_angles = true`).  For an engine that leaves the same mesh
in both modes their output buffers are equal. -/
theorem entry_points_same_pipeline {FT : Type} (K : Kernel FT) (engine : Engine FT)
    (data valuesPtr rowSizesPtr : List Word) (rowCount : Nat) (height : Word) :
    ((∃ f, create_weighted_straight_skeleton K engine data valuesPtr rowSizesPtr rowCount
            height = ([], Except.error f) ∧
          create_angle_straight_skeleton K engine data valuesPtr rowSizesPtr rowCount
            height = ([], Except.error f)) ∨
      (∃ rows pwh, unpack_rows K valuesPtr rowSizesPtr rowCount = Except.ok rows ∧
        decode_polygon K data = Except.ok pwh ∧
        create_weighted_straight_skeleton K engine data valuesPtr rowSizesPtr rowCount height
          = ((generate_extruded_mesh engine pwh rows false (K.to_double height) []).2,
              Except.ok (serialize_mesh K
                (generate_extruded_mesh engine pwh rows false (K.to_double height) []).1)) ∧
        create_angle_straight_skeleton K engine data valuesPtr rowSizesPtr rowCount height
          = ((generate_extruded_mesh engine pwh rows true (K.to_double height) []).2,
              Except.ok (serialize_mesh K
                (generate_extruded_mesh engine pwh rows true (K.to_double height) []).1)) ∧
        (generate_extruded_mesh engine pwh rows false (K.to_double height) []).2
          = [⟨pwh, Params.weights rows (K.to_double height)⟩] ∧
        (generate_extruded_mesh engine pwh rows true (K.to_double height) []).2
          = [⟨pwh, Params.angles rows (K.to_double height)⟩])) ∧
    ((∀ pwh rows h, (engine pwh (Params.angles rows h)).2
        = (engine pwh (Params.weights rows h)).2) →
      (create_weighted_straight_skeleton K engine data valuesPtr rowSizesPtr rowCount
          height).2
        = (create_angle_straight_skeleton K engine data valuesPtr rowSizesPtr rowCount
          height).2) := by
  cases hu : unpack_rows K valuesPtr rowSizesPtr rowCount with
  | error f =>
    have h := create_unpack_error K engine data valuesPtr rowSizesPtr rowCount height f hu
    exact ⟨Or.inl ⟨f, h⟩, fun _ => by rw [h.1, h.2]⟩
  | ok rows =>
    cases hd : decode_polygon K data with
    | error f =>
      have h := create_decode_error K engine data valuesPtr rowSizesPtr rowCount height
        rows f hu hd
      exact ⟨Or.inl ⟨f, h⟩, fun _ => by rw [h.1, h.2]⟩
    | ok pwh =>
      have hw := create_weighted_ok K engine data valuesPtr rowSizesPtr rowCount height
        rows pwh hu hd
      have ha := create_angle_ok K engine data valuesPtr rowSizesPtr rowCount height
        rows pwh hu hd
      refine ⟨Or.inr ⟨rows, pwh, rfl, rfl, ?_, ?_, ?_, ?_⟩, fun hsame => ?_⟩
      · rw [hw]; simp [generate_extruded_mesh]
      · rw [ha]; simp [generate_extruded_mesh]
      · simp [generate_extruded_mesh]
      · simp [generate_extruded_mesh]
      · rw [hw, ha, hsame]

/-- Witness of C17: on the square with the row `[1,1,1,1]` the pyramid engine
leaves the same mesh in both modes, and both entry points return the same
buffer. -/
theorem entry_points_same_pipeline_witness :
    (∀ pwh rows h, (pyramid_engine pwh (Params.angles rows h)).2
      = (pyramid_engine pwh (Params.weights rows h)).2) ∧
    (create_weighted_straight_skeleton exact_kernel pyramid_engine square_buffer unit_weights
        [4] 1 f_ten).2
      = (create_angle_straight_skeleton exact_kernel pyramid_engine square_buffer unit_weights
        [4] 1 f_ten).2 ∧
    (create_weighted_straight_skeleton exact_kernel pyramid_engine square_buffer unit_weights
        [4] 1 f_ten).1
      ≠ (create_angle_straight_skeleton exact_kernel pyramid_engine square_buffer unit_weights
        [4] 1 f_ten).1 :=
  ⟨fun _ _ _ => rfl,
    (entry_points_same_pipeline exact_kernel pyramid_engine square_buffer unit_weights
      [4] 1 f_ten).2 (fun _ _ _ => rfl),
    by decide⟩

/-! ## Vertex indices -/

/-- The map after a pass over `l` from the state `(m, k)`: a vertex of `l` has
`k` plus its position in `l`, any other vertex keeps its entry. -/
theorem foldl_index_map (l : List Vertex_index) (hnd : l.Nodup) :
    ∀ (m : Vertex_index → Option Nat) (k : Nat) (v : Vertex_index),
      (l.foldl
          (fun (st : (Vertex_index → Option Nat) × Nat) v =>
            ((fun u => if u = v then some st.2 else st.1 u), st.2 + 1))
          (m, k)).1 v
        = if v ∈ l then some (k + l.indexOf v) else m v := by
  induction l with
  | nil => intro m k v; simp
  | cons a l ih =>
    intro m k v
    have hn := List.nodup_cons.mp hnd
    simp only [List.foldl_cons]
    rw [ih hn.2]
    by_cases hva : v = a
    · subst hva
      simp [hn.1]
    · have hne : a ≠ v := fun h => hva h.symm
      by_cases hvl : v ∈ l
      · simp only [hvl, if_true, List.mem_cons, or_true, List.indexOf_cons_ne l hne]
        congr 1
        omega
      · simp [hvl, hva]

theorem build_index_map_eq (vertices : List Vertex_index) (hnd : vertices.Nodup)
    (v : Vertex_index) (hv : v ∈ vertices) :
    build_index_map vertices v = some (vertices.indexOf v) := by
  simp only [build_index_map]
  rw [foldl_index_map vertices hnd]
  simp [hv]

theorem map_position_eq (vertices : List Vertex_index) (hnd : vertices.Nodup)
    (v : Vertex_index) (hv : v ∈ vertices) :
    map_position (build_index_map vertices) v = vertex_position vertices v := by
  simp [map_position, vertex_position, build_index_map_eq vertices hnd v hv]

theorem store_face_with_map_eq (vertices : List Vertex_index) (hnd : vertices.Nodup)
    (face : List Vertex_index) (hface : ∀ v ∈ face, v ∈ vertices) (d : List Word) :
    store_face_with_map (build_index_map vertices) d face = store_face vertices d face := by
  simp only [store_face_with_map, store_face]
  generalize d ++ [face.foldl (fun c _ => c + 1) 0 % UINT32_MOD] = d0
  induction face generalizing d0 with
  | nil => rfl
  | cons v face ih =>
    simp only [List.foldl_cons]
    rw [map_position_eq vertices hnd v (hface v (List.mem_cons_self v face))]
    exact ih (fun u hu => hface u (List.mem_cons_of_mem v hu)) _

theorem foldl_store_face_with_map (vertices : List Vertex_index) (hnd : vertices.Nodup)
    (faces : List (List Vertex_index)) (href : ∀ face ∈ faces, ∀ v ∈ face, v ∈ vertices)
    (d : List Word) :
    faces.foldl (store_face_with_map (build_index_map vertices)) d
      = faces.foldl (store_face vertices) d := by
  induction faces generalizing d with
  | nil => rfl
  | cons f faces ih =>
    simp only [List.foldl_cons]
    rw [store_face_with_map_eq vertices hnd f (href f (List.mem_cons_self f faces))]
    exact ih (fun g hg => href g (List.mem_cons_of_mem f hg)) _

/-- C14. For every mesh whose vertex enumeration has no repeated vertex and
whose faces only reference enumerated vertices, the index word found by the
linear search equals the one given by the map built once over the enumeration,
for every face vertex, and the encoder that uses the map returns the same
result (the same buffer, word for word) as `serialize_mesh`. -/
theorem serialize_mesh_with_map_eq {FT : Type} (K : Kernel FT) (mesh : Mesh FT)
    (hnd : mesh.vertices.Nodup)
    (href : ∀ face ∈ mesh.faces, ∀ v ∈ face, v ∈ mesh.vertices) :
    (∀ face ∈ mesh.faces, ∀ v ∈ face,
      build_index_map mesh.vertices v = some (mesh.vertices.indexOf v) ∧
      map_position (build_index_map mesh.vertices) v
        = vertex_position mesh.vertices v) ∧
    serialize_mesh_with_map K mesh = serialize_mesh K mesh := by
  refine ⟨fun face hf v hv =>
    ⟨build_index_map_eq mesh.vertices hnd v (href face hf v hv),
      map_position_eq mesh.vertices hnd v (href face hf v hv)⟩, ?_⟩
  simp only [serialize_mesh_with_map, serialize_mesh, store_vertices_eq, List.nil_append]
  rw [foldl_store_face_with_map mesh.vertices hnd mesh.faces href]

/-- Witness of C14: the pyramid; and the mesh that repeats a vertex shows that
the hypothesis on the enumeration is needed. -/
theorem serialize_mesh_with_map_eq_witness :
    (pyramid.vertices.Nodup ∧ ∀ face ∈ pyramid.faces, ∀ v ∈ face, v ∈ pyramid.vertices) ∧
    serialize_mesh_with_map exact_kernel pyramid = serialize_mesh exact_kernel pyramid ∧
    serialize_mesh_with_map exact_kernel repeated_vertex_mesh
      ≠ serialize_mesh exact_kernel repeated_vertex_mesh :=
  ⟨⟨by decide, by decide⟩,
    (serialize_mesh_with_map_eq exact_kernel pyramid (by decide) (by decide)).2,
    by decide⟩

/-- The three words at position `i` of the vertex block are those of the `i`-th
enumerated vertex. -/
theorem vertex_block_at {FT : Type} (K : Kernel FT) (mesh : Mesh FT) (l : List Vertex_index)
    (rest : List Word) :
    ∀ (i : Nat) (v : Vertex_index), l[i]? = some v →
      ((l.flatMap (vertex_words K mesh) ++ rest).drop (3 * i)).take 3
        = vertex_words K mesh v := by
  induction l with
  | nil => intro i v h; simp at h
  | cons a l ih =>
    intro i v h
    cases i with
    | zero =>
      simp only [List.getElem?_cons_zero, Option.some.injEq] at h
      subst h
      simp [List.flatMap_cons, vertex_words]
    | succ i =>
      rw [List.getElem?_cons_succ] at h
      have h3 : 3 * (i + 1) = (vertex_words K mesh a).length + 3 * i := by
        simp [vertex_words]; omega
      rw [List.flatMap_cons, List.append_assoc, h3, ← List.drop_drop, List.drop_left]
      exact ih i v h

/-- C15. For every mesh whose faces only reference vertices of the mesh (and
with fewer than `2^32` vertices), in the buffer `serialize_mesh` returns the
first word is the vertex count `V`, the index words of each face are the
positions found for its vertices, every such index word is strictly less than
`V`, the vertex enumerated at that position is the face vertex itself, and the
three words at that position of the vertex block are its coordinates. -/
theorem serialize_mesh_indices_valid {FT : Type} (K : Kernel FT) (mesh : Mesh FT)
    (href : ∀ face ∈ mesh.faces, ∀ v ∈ face, v ∈ mesh.vertices)
    (hV : mesh.num_vertices < UINT32_MOD) (buf : Buffer)
    (hbuf : serialize_mesh K mesh = some buf) :
    buf.data.head? = some mesh.num_vertices ∧
    buf.data = [mesh.num_vertices] ++ mesh.vertices.flatMap (vertex_words K mesh)
      ++ [mesh.num_faces % UINT32_MOD]
      ++ mesh.faces.flatMap
          (fun face => face.length % UINT32_MOD
            :: face.map (vertex_position mesh.vertices)) ∧
    ∀ face ∈ mesh.faces, ∀ v ∈ face,
      vertex_position mesh.vertices v < mesh.num_vertices ∧
      vertex_position mesh.vertices v = mesh.vertices.indexOf v ∧
      mesh.vertices[vertex_position mesh.vertices v]? = some v ∧
      (buf.data.drop (1 + 3 * vertex_position mesh.vertices v)).take 3
        = vertex_words K mesh v := by
  have hne : mesh.num_vertices ≠ 0 := by
    intro h0
    simp [serialize_mesh, h0] at hbuf
  rw [serialize_mesh_eq K mesh hne, Option.some.injEq] at hbuf
  subst hbuf
  rw [Nat.mod_eq_of_lt hV]
  refine ⟨by simp, rfl, ?_⟩
  intro face hf v hv
  have hmem := href face hf v hv
  have hpos : vertex_position mesh.vertices v = mesh.vertices.indexOf v :=
    vertex_position_eq mesh.vertices v hV
  have hlt : mesh.vertices.indexOf v < mesh.vertices.length :=
    List.indexOf_lt_length.mpr hmem
  have hget : mesh.vertices[mesh.vertices.indexOf v]? = some v := by
    rw [List.getElem?_eq_getElem hlt, List.getElem_indexOf hlt]
  rw [hpos]
  refine ⟨hlt, rfl, hget, ?_⟩
  have hd : ([mesh.num_vertices] ++ mesh.vertices.flatMap (vertex_words K mesh)
        ++ [mesh.num_faces % UINT32_MOD]
        ++ mesh.faces.flatMap
            (fun face => face.length % UINT32_MOD
              :: face.map (vertex_position mesh.vertices))).drop
          (1 + 3 * mesh.vertices.indexOf v)
      = (mesh.vertices.flatMap (vertex_words K mesh)
          ++ ([mesh.num_faces % UINT32_MOD]
            ++ mesh.faces.flatMap
              (fun face => face.length % UINT32_MOD
                :: face.map (vertex_position mesh.vertices)))).drop
          (3 * mesh.vertices.indexOf v) := by
    simp only [List.append_assoc, List.singleton_append, List.cons_append, List.nil_append]
    rw [Nat.add_comm 1, List.drop_succ_cons]
  rw [hd]
  exact vertex_block_at K mesh mesh.vertices _ _ v hget

theorem pyramid_faces_reference_vertices :
    ∀ face ∈ pyramid.faces, ∀ v ∈ face, v ∈ pyramid.vertices := by
  decide

/-- Witness of C15: the pyramid, whose index words are all below 5. -/
theorem serialize_mesh_indices_valid_witness :
    ((∀ face ∈ pyramid.faces, ∀ v ∈ face, v ∈ pyramid.vertices) ∧
      pyramid.num_vertices < UINT32_MOD ∧
      serialize_mesh exact_kernel pyramid
        = some ⟨38, mesh_layout exact_kernel pyramid⟩) ∧
    ((⟨38, mesh_layout exact_kernel pyramid⟩ : Buffer).data.drop
        (1 + 3 * vertex_position pyramid.vertices 4)).take 3
      = vertex_words exact_kernel pyramid 4 :=
  ⟨⟨pyramid_faces_reference_vertices, by decide, by rfl⟩,
    ((serialize_mesh_indices_valid exact_kernel pyramid pyramid_faces_reference_vertices
      (by decide) ⟨38, mesh_layout exact_kernel pyramid⟩ (by rfl)).2.2
        [0, 1, 4] (by decide) 4 (by decide)).2.2.2⟩

/-! ## Concatenation of the rows -/

theorem row_offset_le_add (rowSizes : List Nat) (i n : Nat) :
    row_offset rowSizes i ≤ row_offset rowSizes (i + n) := by
  induction n with
  | zero => exact Nat.le_refl _
  | succ n ih =>
    have h : row_offset rowSizes (i + (n + 1))
        = row_offset rowSizes (i + n) + rowSizes.getD (i + n) 0 := rfl
    omega

theorem row_offset_length (rowSizes : List Nat) :
    row_offset rowSizes rowSizes.length = rowSizes.sum := by
  rw [row_offset_eq_sum_take, List.take_length]

/-- The rows of the specification from row `i` on, one after the other, are one
contiguous slice of the values. -/
theorem flatten_spec_rows {FT : Type} (K : Kernel FT) (values : List Word)
    (rowSizes : List Nat) (n : Nat) :
    ∀ i, ((List.range' i n).map (spec_row K values rowSizes)).flatten
      = ((values.drop (row_offset rowSizes i)).take
          (row_offset rowSizes (i + n) - row_offset rowSizes i)).map K.to_double := by
  induction n with
  | zero => intro i; simp
  | succ n ih =>
    intro i
    have hstep : row_offset rowSizes (i + 1)
        = row_offset rowSizes i + rowSizes.getD i 0 := rfl
    have hmono := row_offset_le_add rowSizes (i + 1) n
    have hidx : i + (n + 1) = i + 1 + n := by omega
    have hlen : row_offset rowSizes (i + 1 + n) - row_offset rowSizes i
        = rowSizes.getD i 0
          + (row_offset rowSizes (i + 1 + n) - row_offset rowSizes (i + 1)) := by
      omega
    rw [List.range'_succ, List.map_cons, List.flatten_cons, ih (i + 1), hidx, hlen,
      List.take_add, List.drop_drop, List.map_append, hstep]
    rfl

theorem length_spec_row {FT : Type} (K : Kernel FT) (values : List Word)
    (rowSizes : List Nat) (hsum : rowSizes.sum ≤ values.length) (i : Nat)
    (hi : i < rowSizes.length) :
    (spec_row K values rowSizes i).length = rowSizes[i] := by
  have hle := row_offset_succ_le_sum rowSizes i
  have hd : rowSizes.getD i 0 = rowSizes[i] := List.getD_eq_getElem rowSizes 0 hi
  simp only [row_offset, hd] at hle
  simp only [spec_row, List.length_map, List.length_take, List.length_drop, hd]
  omega

theorem lengths_spec_rows {FT : Type} (K : Kernel FT) (values : List Word)
    (rowSizes : List Nat) (hsum : rowSizes.sum ≤ values.length) :
    ((List.range rowSizes.length).map (spec_row K values rowSizes)).map List.length
      = rowSizes := by
  apply List.ext_getElem?
  intro n
  by_cases hn : n < rowSizes.length
  · simp only [List.getElem?_map, List.getElem?_range hn, Option.map_some',
      List.getElem?_eq_getElem hn, length_spec_row K values rowSizes hsum n hn]
  · have h1 : rowSizes.length ≤ n := by omega
    rw [List.getElem?_eq_none h1, List.getElem?_eq_none (by simpa using h1)]

/-- C18. For every values array and every row-size list whose sum `S` is at
most the length of the values array and below `2^32`, the rows the unpacking
loop produces, concatenated in order, are exactly the first `S` values (each
promoted to `FT`): nothing is dropped, repeated or reordered; each row has its
declared size; and the values past `S` are ignored, any array with the same
first `S` values giving the same rows. -/
theorem unpack_rows_concat {FT : Type} (K : Kernel FT) (values : List Word)
    (rowSizes : List Nat) (hsum : rowSizes.sum ≤ values.length)
    (h32 : rowSizes.sum < UINT32_MOD) :
    ∃ rows, unpack_rows K values rowSizes rowSizes.length = Except.ok rows ∧
      rows.flatten = (values.take rowSizes.sum).map K.to_double ∧
      rows.map List.length = rowSizes ∧
      ∀ values2 : List Word, values2.take rowSizes.sum = values.take rowSizes.sum →
        unpack_rows K values2 rowSizes rowSizes.length = Except.ok rows := by
  have hrows : ∀ vs : List Word, rowSizes.sum ≤ vs.length →
      unpack_rows K vs rowSizes rowSizes.length
          = Except.ok ((List.range rowSizes.length).map (spec_row K vs rowSizes)) ∧
        ((List.range rowSizes.length).map (spec_row K vs rowSizes)).flatten
          = (vs.take rowSizes.sum).map K.to_double := by
    intro vs hvs
    have h := unpack_loop_ok K vs rowSizes hvs h32 rowSizes.length [] 0 (by omega)
    have hf := flatten_spec_rows K vs rowSizes rowSizes.length 0
    simp only [Nat.zero_add, row_offset_length] at hf
    refine ⟨by simpa [unpack_rows, row_offset, List.range_eq_range'] using h, ?_⟩
    rw [List.range_eq_range', hf]
    simp [row_offset]
  obtain ⟨h1, h2⟩ := hrows values hsum
  refine ⟨_, h1, h2, lengths_spec_rows K values rowSizes hsum, ?_⟩
  intro values2 htake
  have hlen2 : rowSizes.sum ≤ values2.length := by
    have := congrArg List.length htake
    simp only [List.length_take] at this
    omega
  obtain ⟨h3, h4⟩ := hrows values2 hlen2
  rw [h3]
  congr 1
  rw [List.eq_iff_flatten_eq]
  exact ⟨by rw [h4, h2, htake],
    by rw [lengths_spec_rows K values2 rowSizes hlen2,
      lengths_spec_rows K values rowSizes hsum]⟩

/-- Witness of C18: sizes 2, 3, 1 over seven values; the rows concatenate to the
first six values and the seventh is ignored. -/
theorem unpack_rows_concat_witness :
    ([2, 3, 1].sum ≤ [f_one, f_ten, 0, f_one, f_ten, 0, f_one].length ∧
      [2, 3, 1].sum < UINT32_MOD) ∧
    ∃ rows, unpack_rows exact_kernel [f_one, f_ten, 0, f_one, f_ten, 0, f_one] [2, 3, 1]
          [2, 3, 1].length = Except.ok rows ∧
      rows.flatten = ([f_one, f_ten, 0, f_one, f_ten, 0, f_one].take [2, 3, 1].sum).map
        exact_kernel.to_double ∧
      rows.map List.length = [2, 3, 1] ∧
      ∀ values2 : List Word,
        values2.take [2, 3, 1].sum
            = [f_one, f_ten, 0, f_one, f_ten, 0, f_one].take [2, 3, 1].sum →
        unpack_rows exact_kernel values2 [2, 3, 1] [2, 3, 1].length = Except.ok rows :=
  ⟨⟨by decide, by decide⟩,
    unpack_rows_concat exact_kernel [f_one, f_ten, 0, f_one, f_ten, 0, f_one] [2, 3, 1]
      (by decide) (by decide)⟩

/-! ## The polygon buffer is self-delimiting -/

/-- The point loop depends only on the words it indexes. -/
theorem read_points_congr {FT : Type} (K : Kernel FT) (data data2 : List Word) (n : Nat) :
    ∀ (target : Polygon_2 FT) (i : Nat),
      (∀ k, k < 2 * (i + n) → data2[k]? = data[k]?) →
      read_points K data2 target i n = read_points K data target i n := by
  induction n with
  | zero => intro target i _; simp [read_points]
  | succ n ih =>
    intro target i h
    have hx := h (i * 2) (by omega)
    have hy := h (i * 2 + 1) (by omega)
    simp only [read_points, hx, hy]
    cases data[i * 2]? with
    | none => rfl
    | some x =>
      cases data[i * 2 + 1]? with
      | none => rfl
      | some y =>
        exact ih _ (i + 1) (fun k hk => h k (by omega))

/-- When the point loop returns, all the words it indexes are in the buffer. -/
theorem read_points_ok_length {FT : Type} (K : Kernel FT) (data : List Word) (n : Nat) :
    ∀ (target res : Polygon_2 FT) (i : Nat),
      read_points K data target i n = Except.ok res → n ≠ 0 → 2 * (i + n) ≤ data.length := by
  induction n with
  | zero => intro target res i _ h; exact absurd rfl h
  | succ n ih =>
    intro target res i h _
    simp only [read_points] at h
    cases hx : data[i * 2]? with
    | none => simp [hx] at h
    | some x =>
      cases hy : data[i * 2 + 1]? with
      | none => simp [hx, hy] at h
      | some y =>
        simp only [hx, hy] at h
        have hlt : i * 2 + 1 < data.length := by
          by_contra hc
          rw [List.getElem?_eq_none (by omega)] at hy
          exact Option.noConfusion hy
        by_cases hn : n = 0
        · omega
        · have := ih _ _ (i + 1) h hn
          omega

/-- When the ring loop returns a polygon, it has consumed a prefix of the
buffer that ends with the zero point count it stopped at; on any buffer with
the same prefix, and any iteration bound of at least the length of that prefix,
it returns the same polygon. -/
theorem decode_loop_prefix {FT : Type} (K : Kernel FT) (fuel : Nat) :
    ∀ (points : Nat) (data : List Word) (outer_set : Bool) (outer hole : Polygon_2 FT)
      (poly pwh : Polygon_with_holes FT), data.length < UINT32_MOD →
      decode_loop K fuel points data outer_set outer hole poly = Except.ok pwh →
      ∃ n, n ≤ data.length ∧ (points = 0 → n = 0) ∧
        (points ≠ 0 → 0 < n ∧ data[n - 1]? = some 0) ∧
        ∀ (data2 : List Word) (fuel2 : Nat), (∀ k, k < n → data2[k]? = data[k]?) →
          n ≤ fuel2 →
          decode_loop K fuel2 points data2 outer_set outer hole poly = Except.ok pwh := by
  have hzero : ∀ (data : List Word) (outer_set : Bool) (outer hole : Polygon_2 FT)
      (poly pwh : Polygon_with_holes FT) (f : Nat),
      decode_loop K f 0 data outer_set outer hole poly = Except.ok pwh →
      ∃ n, n ≤ data.length ∧ ((0 : Nat) = 0 → n = 0) ∧
        ((0 : Nat) ≠ 0 → 0 < n ∧ data[n - 1]? = some 0) ∧
        ∀ (data2 : List Word) (fuel2 : Nat), (∀ k, k < n → data2[k]? = data[k]?) →
          n ≤ fuel2 →
          decode_loop K fuel2 0 data2 outer_set outer hole poly = Except.ok pwh := by
    intro data outer_set outer hole poly pwh f h
    rw [decode_loop_zero] at h
    exact ⟨0, Nat.zero_le _, fun _ => rfl, fun hne => absurd rfl hne,
      fun data2 fuel2 _ _ => by rw [decode_loop_zero]; exact h⟩
  induction fuel with
  | zero =>
    intro points data outer_set outer hole poly pwh _ h
    by_cases hp : points = 0
    · subst hp
      exact hzero data outer_set outer hole poly pwh 0 h
    · simp [decode_loop, hp] at h
  | succ fuel ih =>
    intro points data outer_set outer hole poly pwh hlt h
    by_cases hp : points = 0
    · subst hp
      exact hzero data outer_set outer hole poly pwh (fuel + 1) h
    · simp only [decode_loop, hp, if_false] at h
      cases hr : read_points K data (if outer_set then hole else outer) 0 points with
      | error e => simp [hr] at h
      | ok target =>
        simp only [hr] at h
        cases hd : data.drop (points * 2 % UINT32_MOD) with
        | nil => simp [hd] at h
        | cons next data1 =>
          simp only [hd] at h
          have h2p := read_points_ok_length K data points _ _ 0 hr hp
          have hadv : points * 2 % UINT32_MOD = points * 2 :=
            Nat.mod_eq_of_lt (by omega)
          rw [hadv] at hd
          have hlen : data.length = points * 2 + 1 + data1.length := by
            have := congrArg List.length hd
            simp only [List.length_drop, List.length_cons] at this
            omega
          have hnext : data[points * 2]? = some next := by
            have := List.getElem?_drop data (points * 2) 0
            rw [hd] at this
            simpa using this.symm
          have hdata1 : ∀ k, data1[k]? = data[points * 2 + (k + 1)]? := by
            intro k
            have := List.getElem?_drop data (points * 2) (k + 1)
            rw [hd] at this
            simpa using this
          -- what agreement on the prefix gives for another buffer
          have hother : ∀ (n1 : Nat) (data2 : List Word),
              (∀ k, k < points * 2 + 1 + n1 → data2[k]? = data[k]?) →
              read_points K data2 (if outer_set then hole else outer) 0 points
                  = Except.ok target ∧
                ∃ data3, data2.drop (points * 2 % UINT32_MOD) = next :: data3 ∧
                  ∀ k, k < n1 → data3[k]? = data1[k]? := by
            intro n1 data2 hag
            refine ⟨?_, ?_⟩
            · rw [read_points_congr K data data2 points _ 0 (fun k hk => hag k (by omega)), hr]
            · rw [hadv]
              have h0 : (data2.drop (points * 2))[0]? = some next := by
                rw [List.getElem?_drop, Nat.add_zero, hag _ (by omega), hnext]
              cases hd2 : data2.drop (points * 2) with
              | nil => rw [hd2] at h0; simp at h0
              | cons a data3 =>
                rw [hd2] at h0
                simp only [List.getElem?_cons_zero, Option.some.injEq] at h0
                subst h0
                refine ⟨data3, rfl, fun k hk => ?_⟩
                have h3 := List.getElem?_drop data2 (points * 2) (k + 1)
                rw [hd2, List.getElem?_cons_succ] at h3
                rw [h3, hag _ (by omega), hdata1]
          -- the end of the prefix
          have hterm : ∀ n1 : Nat, (next = 0 → n1 = 0) →
              (next ≠ 0 → 0 < n1 ∧ data1[n1 - 1]? = some 0) →
              data[points * 2 + 1 + n1 - 1]? = some 0 := by
            intro n1 hz hnz
            by_cases hn : next = 0
            · rw [hz hn, Nat.add_zero, Nat.add_sub_cancel, hnext, hn]
            · obtain ⟨hpos, hget⟩ := hnz hn
              have hidx : points * 2 + 1 + n1 - 1 = points * 2 + (n1 - 1 + 1) := by omega
              rw [hidx, ← hdata1, hget]
          have hdata1lt : data1.length < UINT32_MOD := by omega
          cases outer_set with
          | false =>
            simp only [if_true] at h
            by_cases hc : K.is_counterclockwise_oriented target = true
            · simp only [hc, if_true] at h
              obtain ⟨n1, hn1, hz, hnz, hrest⟩ := ih next data1 true target hole
                ⟨target, []⟩ pwh hdata1lt h
              refine ⟨points * 2 + 1 + n1, by omega, fun h0 => absurd h0 hp,
                fun _ => ⟨by omega, hterm n1 hz hnz⟩, ?_⟩
              intro data2 fuel2 hag hfuel
              obtain ⟨hr2, data3, hd3, hag3⟩ := hother n1 data2 hag
              obtain ⟨f2, rfl⟩ : ∃ f2, fuel2 = f2 + 1 := ⟨fuel2 - 1, by omega⟩
              simp only [decode_loop, hp, if_false, hr2, hd3, if_true, hc]
              exact hrest data3 f2 hag3 (by omega)
            · simp [hc] at h
          | true =>
            simp only [Bool.true_eq_false, if_false] at h
            by_cases hc : K.is_clockwise_oriented target = true
            · simp only [hc, if_true] at h
              obtain ⟨n1, hn1, hz, hnz, hrest⟩ := ih next data1 true outer []
                ⟨poly.outer, poly.holes ++ [target]⟩ pwh hdata1lt h
              refine ⟨points * 2 + 1 + n1, by omega, fun h0 => absurd h0 hp,
                fun _ => ⟨by omega, hterm n1 hz hnz⟩, ?_⟩
              intro data2 fuel2 hag hfuel
              obtain ⟨hr2, data3, hd3, hag3⟩ := hother n1 data2 hag
              obtain ⟨f2, rfl⟩ : ∃ f2, fuel2 = f2 + 1 := ⟨fuel2 - 1, by omega⟩
              have hr3 : read_points K data2 hole 0 points = Except.ok target := by
                simpa using hr2
              simp only [decode_loop, hp, if_false, if_true, hr3, hd3, Bool.true_eq_false, hc]
              exact hrest data3 f2 hag3 (by omega)
            · simp [hc] at h

theorem getElem?_eq_of_take_eq {α : Type} (l l2 : List α) (n : Nat)
    (h : l2.take n = l.take n) (k : Nat) (hk : k < n) : l2[k]? = l[k]? := by
  have h1 : (l2.take n)[k]? = (l.take n)[k]? := by rw [h]
  simpa [List.getElem?_take, hk] using h1

/-- C16. The polygon buffer is self-delimiting: whenever `decode_polygon`
returns a polygon for a buffer (of fewer than `2^32` words), there is a prefix
of the buffer, ending with the zero point count at which the ring loop stops,
that alone decides the result: the prefix by itself decodes to the same
polygon, so no word after the terminator is read, and so does every buffer
that starts with the same prefix, whatever follows. -/
theorem decode_polygon_self_delimiting {FT : Type} (K : Kernel FT) (buf : List Word)
    (pwh : Polygon_with_holes FT) (hlen : buf.length < UINT32_MOD)
    (h : decode_polygon K buf = Except.ok pwh) :
    ∃ n, 0 < n ∧ n ≤ buf.length ∧ buf[n - 1]? = some 0 ∧
      decode_polygon K (buf.take n) = Except.ok pwh ∧
      ∀ buf2 : List Word, buf2.take n = buf.take n →
        decode_polygon K buf2 = Except.ok pwh := by
  cases buf with
  | nil => simp [decode_polygon] at h
  | cons points data =>
    by_cases hp : points = 0
    · simp [decode_polygon, hp] at h
    · by_cases hgt : points > 2
      · simp only [decode_polygon, hp, hgt, if_false, not_true_eq_false] at h
        have hdl : data.length < UINT32_MOD := by
          simp only [List.length_cons] at hlen
          omega
        obtain ⟨n1, hn1, -, hnz, hrest⟩ := decode_loop_prefix K (data.length + 1) points data
          false [] [] Polygon_with_holes.empty pwh hdl h
        obtain ⟨hpos, hget⟩ := hnz hp
        have hall : ∀ buf2 : List Word,
            buf2.take (n1 + 1) = (points :: data).take (n1 + 1) →
            decode_polygon K buf2 = Except.ok pwh := by
          intro buf2 h2
          cases buf2 with
          | nil => simp at h2
          | cons p2 data2 =>
            simp only [List.take_succ_cons, List.cons.injEq] at h2
            obtain ⟨rfl, h2⟩ := h2
            have hag := getElem?_eq_of_take_eq data data2 n1 h2
            have hl2 : n1 ≤ data2.length := by
              have h3 := hag (n1 - 1) (by omega)
              rw [hget] at h3
              by_contra hc
              rw [List.getElem?_eq_none (by omega)] at h3
              exact Option.noConfusion h3
            simp only [decode_polygon, hp, hgt, if_false, not_true_eq_false]
            exact hrest data2 (data2.length + 1) hag (by omega)
        refine ⟨n1 + 1, by omega, by simp only [List.length_cons]; omega, ?_, ?_, hall⟩
        · have hidx : n1 + 1 - 1 = (n1 - 1) + 1 := by omega
          rw [hidx, List.getElem?_cons_succ, hget]
        · exact hall _ (by rw [List.take_take, Nat.min_self])
      · simp [decode_polygon, hp, hgt] at h

/-- Witness of C16: the square's buffer followed by three more words decodes to
the square, as the buffer without them does. -/
theorem decode_polygon_self_delimiting_witness :
    ((square_buffer ++ [7, 8, 9]).length < UINT32_MOD ∧
      decode_polygon exact_kernel (square_buffer ++ [7, 8, 9]) = Except.ok square_pwh ∧
      decode_polygon exact_kernel square_buffer = Except.ok square_pwh) ∧
    ∃ n, 0 < n ∧ n ≤ (square_buffer ++ [7, 8, 9]).length ∧
      (square_buffer ++ [7, 8, 9])[n - 1]? = some 0 ∧
      decode_polygon exact_kernel ((square_buffer ++ [7, 8, 9]).take n)
        = Except.ok square_pwh ∧
      ∀ buf2 : List Word, buf2.take n = (square_buffer ++ [7, 8, 9]).take n →
        decode_polygon exact_kernel buf2 = Except.ok square_pwh :=
  ⟨⟨by decide, by rfl, by rfl⟩,
    decode_polygon_self_delimiting exact_kernel (square_buffer ++ [7, 8, 9]) square_pwh
      (by decide) (by rfl)⟩

end Skeleton
